import Mathlib

/-!
Verification of the focal-mcp server core: a shallow embedding of
`workspace.py` (WorkspaceManager), `mcp.py` (MCPHandler) and
`notifications.py` (Notifier) into Lean.

The filesystem is modelled as a list of file entries (canonical relative
path segments, text content, modification time, readability flag).  Python
strings are modelled as Lean `String`/`List Char`; `str.replace`,
`str.lstrip`, `str.strip`, `str.split` and list sorting are re-implemented
with Python's exact semantics.  `hashlib.sha256` is implemented in full
(FIPS 180-4) over byte lists.  `Path.resolve` is modelled as lexical
canonicalization over an absolute root given as a segment list (symlinks
are not modelled).
-/

namespace Focal

/-! ## Python string primitives -/

/-- Code-point lexicographic strict comparison of character lists: the order
Python uses to compare `str` values. -/
def strLtb : List Char → List Char → Bool
  | [], [] => false
  | [], _ :: _ => true
  | _ :: _, [] => false
  | a :: as, b :: bs =>
    if a.toNat < b.toNat then true
    else if b.toNat < a.toNat then false
    else strLtb as bs

/-- Python `a <= b` on strings, as a Bool on the underlying characters. -/
def strLeb (a b : List Char) : Bool := ! strLtb b a

/-- Python `s.startswith(pre)`. -/
def pyStartsWith (s pre : String) : Bool := pre.data.isPrefixOf s.data

/-- Python `s.lstrip("/")`: drop every leading `'/'`. -/
def lstripSlash (s : List Char) : List Char := s.dropWhile (· = '/')

/-- The characters Python `str.strip()` removes (ASCII whitespace). -/
def isPySpace (c : Char) : Bool :=
  c = ' ' || c = '\t' || c = '\n' || c = '\x0d' || c = '\x0b' || c = '\x0c'

/-- Python `s.strip()` on the character list. -/
def stripChars (s : List Char) : List Char :=
  ((s.dropWhile isPySpace).reverse.dropWhile isPySpace).reverse

/-- Python `s.strip()`. -/
def pyStrip (s : String) : String := ⟨stripChars s.data⟩

/-- Python `s.replace(a, b)` for single-character `a`, `b`: every occurrence
of `a` becomes `b`. -/
def replaceChar (a b : Char) (s : List Char) : List Char :=
  s.map fun c => if c = a then b else c

/-- Python `s.replace(".md", "")`: remove every non-overlapping occurrence of
`".md"`, scanning left to right. -/
def stripMd : List Char → List Char
  | [] => []
  | [c] => [c]
  | [c1, c2] => [c1, c2]
  | c1 :: c2 :: c3 :: rest =>
    if c1 = '.' ∧ c2 = 'm' ∧ c3 = 'd' then stripMd rest
    else c1 :: stripMd (c2 :: c3 :: rest)

/-- Whether `pat` occurs as a contiguous subsequence of `s`. -/
def containsSeg (pat : List Char) : List Char → Bool
  | [] => pat.isPrefixOf []
  | c :: rest => pat.isPrefixOf (c :: rest) || containsSeg pat rest

/-- Join character lists with a separator character (`sep.join`). -/
def joinChar (sep : Char) : List (List Char) → List Char
  | [] => []
  | [s] => s
  | s :: rest => s ++ sep :: joinChar sep rest

/-- Python `s.split("/")` (also the segment view `pathlib` takes of a
relative path): split the character list at every `'/'`. -/
def splitSlash : List Char → List (List Char)
  | [] => [[]]
  | c :: rest =>
    if c = '/' then [] :: splitSlash rest
    else
      match splitSlash rest with
      | s :: ss => (c :: s) :: ss
      | [] => [[c]]

/-- Join character lists with a multi-character separator. -/
def joinCharList (sep : List Char) : List (List Char) → List Char
  | [] => []
  | [s] => s
  | s :: rest => s ++ sep ++ joinCharList sep rest

/-- Python `sep.join(parts)`. -/
def pyJoin (sep : String) (parts : List String) : String :=
  ⟨joinCharList sep.data (parts.map String.data)⟩

/-- UTF-8 encoding of a single character (RFC 3629). -/
def utf8Char (c : Char) : List Nat :=
  let n := c.toNat
  if n < 128 then [n]
  else if n < 2048 then [192 + n / 64, 128 + n % 64]
  else if n < 65536 then [224 + n / 4096, 128 + (n / 64) % 64, 128 + n % 64]
  else [240 + n / 262144, 128 + (n / 4096) % 64, 128 + (n / 64) % 64, 128 + n % 64]

/-- UTF-8 encoding of a string, as Python `s.encode("utf-8")`. -/
def utf8 (s : String) : List Nat := (s.data.map utf8Char).flatten

/-! ## SHA-256 (hashlib.sha256), FIPS 180-4, over byte lists -/

/-- Truncation to a 32-bit word. -/
def w32 (n : Nat) : Nat := n % 4294967296

/-- 32-bit right rotation. -/
def rotr (x n : Nat) : Nat := (x >>> n) ||| w32 (x <<< (32 - n))

def shaCh (x y z : Nat) : Nat := (x &&& y) ^^^ ((4294967295 - x) &&& z)

def shaMaj (x y z : Nat) : Nat := (x &&& y) ^^^ (x &&& z) ^^^ (y &&& z)

def bigSigma0 (x : Nat) : Nat := rotr x 2 ^^^ rotr x 13 ^^^ rotr x 22

def bigSigma1 (x : Nat) : Nat := rotr x 6 ^^^ rotr x 11 ^^^ rotr x 25

def smallSigma0 (x : Nat) : Nat := rotr x 7 ^^^ rotr x 18 ^^^ (x >>> 3)

def smallSigma1 (x : Nat) : Nat := rotr x 17 ^^^ rotr x 19 ^^^ (x >>> 10)

/-- The 64 SHA-256 round constants. -/
def shaK : List Nat :=
  [1116352408, 1899447441, 3049323471, 3921009573, 961987163,
   1508970993, 2453635748, 2870763221, 3624381080, 310598401,
   607225278, 1426881987, 1925078388, 2162078206, 2614888103,
   3248222580, 3835390401, 4022224774, 264347078, 604807628,
   770255983, 1249150122, 1555081692, 1996064986, 2554220882,
   2821834349, 2952996808, 3210313671, 3336571891, 3584528711,
   113926993, 338241895, 666307205, 773529912, 1294757372,
   1396182291, 1695183700, 1986661051, 2177026350, 2456956037,
   2730485921, 2820302411, 3259730800, 3345764771, 3516065817,
   3600352804, 4094571909, 275423344, 430227734, 506948616,
   659060556, 883997877, 958139571, 1322822218, 1537002063,
   1747873779, 1955562222, 2024104815, 2227730452, 2361852424,
   2428436474, 2756734187, 3204031479, 3329325298]

/-- The SHA-256 initial hash value. -/
def shaH0 : List Nat :=
  [1779033703, 3144134277, 1013904242,
   2773480762, 1359893119, 2600822924,
   528734635, 1541459225]

/-- Big-endian bytes (most significant first) of `n`, `k` bytes wide. -/
def beBytes (k n : Nat) : List Nat :=
  match k with
  | 0 => []
  | k + 1 => (n >>> (8 * k)) % 256 :: beBytes k n

/-- SHA-256 message padding: append `0x80`, zeros to 56 mod 64, then the
bit length as 8 big-endian bytes. -/
def shaPad (msg : List Nat) : List Nat :=
  msg ++ [128] ++ List.replicate ((119 - msg.length % 64) % 64) 0
      ++ beBytes 8 (msg.length * 8)

/-- Group bytes into big-endian 32-bit words. -/
def bytesToWords : List Nat → List Nat
  | b0 :: b1 :: b2 :: b3 :: rest =>
    (((b0 * 256 + b1) * 256 + b2) * 256 + b3) :: bytesToWords rest
  | _ => []

/-- Group a word list into 16-word blocks. -/
def words16 : List Nat → List (List Nat)
  | w0 :: w1 :: w2 :: w3 :: w4 :: w5 :: w6 :: w7 ::
    w8 :: w9 :: w10 :: w11 :: w12 :: w13 :: w14 :: w15 :: rest =>
    [w0, w1, w2, w3, w4, w5, w6, w7, w8, w9, w10, w11, w12, w13, w14, w15]
      :: words16 rest
  | _ => []

/-- Extend a 16-word block with `n` further schedule words. -/
def shaExtend (ws : List Nat) : Nat → List Nat
  | 0 => ws
  | n + 1 =>
    shaExtend
      (ws ++ [w32 (smallSigma1 (ws.getD (ws.length - 2) 0) +
                   ws.getD (ws.length - 7) 0 +
                   smallSigma0 (ws.getD (ws.length - 15) 0) +
                   ws.getD (ws.length - 16) 0)]) n

/-- One SHA-256 round on the eight working variables. -/
def shaRound (st : List Nat) (kw : Nat × Nat) : List Nat :=
  let a := st.getD 0 0
  let b := st.getD 1 0
  let c := st.getD 2 0
  let d := st.getD 3 0
  let e := st.getD 4 0
  let f := st.getD 5 0
  let g := st.getD 6 0
  let h := st.getD 7 0
  let t1 := w32 (h + bigSigma1 e + shaCh e f g + kw.1 + kw.2)
  let t2 := w32 (bigSigma0 a + shaMaj a b c)
  [w32 (t1 + t2), a, b, c, w32 (d + t1), e, f, g]

/-- SHA-256 compression of one 16-word block into the running state. -/
def shaCompress (st : List Nat) (block : List Nat) : List Nat :=
  let ws := shaExtend block 48
  let fin := (shaK.zip ws).foldl shaRound st
  st.zipWith (fun x y => w32 (x + y)) fin

/-- SHA-256 digest of a byte list, as eight 32-bit words. -/
def sha256 (msg : List Nat) : List Nat :=
  (words16 (bytesToWords (shaPad msg))).foldl shaCompress shaH0

def hexChar (n : Nat) : Char :=
  if n < 10 then Char.ofNat (48 + n) else Char.ofNat (87 + n)

/-- Lower-case hex rendering of one 32-bit word (8 digits). -/
def wordHex (w : Nat) : List Char :=
  [28, 24, 20, 16, 12, 8, 4, 0].map fun i => hexChar ((w >>> i) % 16)

/-- `hashlib.sha256(msg).hexdigest()`. -/
def sha256hex (msg : List Nat) : String := ⟨((sha256 msg).map wordHex).flatten⟩

/-- Python `s[:12]`. -/
def take12 (s : String) : String := ⟨s.data.take 12⟩

deriving instance DecidableEq for Except

/-! ## Workspace model (workspace.py) -/

/-- One file in the workspace tree: its canonical path relative to the root
(as slash-free segments), its text content, its mtime, and whether reading
it succeeds (false models a file whose `read_text`/`read_bytes` raises). -/
structure FileEntry where
  segs : List String
  content : String
  mtime : Nat
  readable : Bool
deriving DecidableEq

/-- The on-disk state under the workspace root, in enumeration order of
`Path.rglob` (order is arbitrary; callers sort when it matters). -/
abbrev Workspace := List FileEntry

/-- WorkspaceManager.relative: the `/`-joined relative path of a file. -/
def relative (e : FileEntry) : String := ⟨joinChar '/' (e.segs.map String.data)⟩

/-- The error `resolve_safe` raises (`ValueError("Path traversal blocked")`). -/
inductive PathErr
  | traversal
deriving DecidableEq

/-- One step of `Path.resolve` canonicalization over an absolute segment
stack: `""`/`"."` are skipped, `".."` pops (clamped at the filesystem
root), anything else is pushed. -/
def canonStep (stack : List String) (seg : String) : List String :=
  if seg = "" || seg = "." then stack
  else if seg = ".." then stack.dropLast
  else stack ++ [seg]

/-- `(root / rel_path.lstrip("/")).resolve()`: the canonical absolute path,
for a symlink-free tree, as a segment list.  `root` is the canonical
absolute path of the workspace root. -/
def resolvedPath (root : List String) (rel : String) : List String :=
  ((splitSlash (lstripSlash rel.data)).map fun cs => (⟨cs⟩ : String)).foldl
    canonStep root

/-- WorkspaceManager.resolve_safe: canonicalize and reject any result that
is neither the root nor a descendant of it. -/
def resolve_safe (root : List String) (rel : String) :
    Except PathErr (List String) :=
  let res := resolvedPath root rel
  if root.isPrefixOf res then .ok res else .error .traversal

/-- Comparison of file entries by relative path, the key
`rules_fingerprint` sorts by (Python string comparison). -/
def fileLe (a b : FileEntry) : Prop :=
  strLeb (relative a).data (relative b).data = true

instance : DecidableRel fileLe := fun _ _ => instDecidableEqBool _ _

/-- `sorted(self.list_files(), key=lambda p: self.relative(p))`: Python's
sort is stable, and a stable sort's output is canonical, so insertion sort
computes the same list. -/
def sortByRel (fs : Workspace) : Workspace := fs.insertionSort fileLe

/-- The result dict of WorkspaceManager.rules_fingerprint.
`rulesUpdatedAt` keeps the raw latest mtime; `none` models Python `None`. -/
structure Fingerprint where
  rulesHash : String
  rulesUpdatedAt : Option Nat
deriving DecidableEq

/-- A propagated filesystem error (Python `OSError` escaping a handler). -/
inductive FsErr
  | ioFail
deriving DecidableEq

/-- The bytes one file contributes to the fingerprint digest: UTF-8 of the
relative path, the separator byte `b"|"` (124), then the file bytes. -/
def digestPiece (e : FileEntry) : List Nat :=
  utf8 (relative e) ++ [124] ++ utf8 e.content

/-- `if latest_mtime is None or mtime > latest_mtime: latest_mtime = mtime`. -/
def maxMtime (latest : Option Nat) (t : Nat) : Option Nat :=
  match latest with
  | none => some t
  | some m => some (if t > m then t else m)

/-- The loop body of rules_fingerprint: feed each sorted file into the
digest stream and track the latest mtime; an unreadable file raises. -/
def fpLoop : List FileEntry → List Nat → Option Nat →
    Except FsErr (List Nat × Option Nat)
  | [], acc, latest => .ok (acc, latest)
  | e :: rest, acc, latest =>
    if e.readable then
      fpLoop rest (acc ++ digestPiece e) (maxMtime latest e.mtime)
    else .error .ioFail

/-- WorkspaceManager.rules_fingerprint. -/
def rules_fingerprint (fs : Workspace) : Except FsErr Fingerprint :=
  match fpLoop (sortByRel fs) [] none with
  | .ok (stream, latest) => .ok ⟨take12 (sha256hex stream), latest⟩
  | .error err => .error err

/-- The DEFAULT_CORE_FILES dict, in insertion order. -/
def DEFAULT_CORE_FILES : List (List String × String) :=
  [(["core", "system.md"], "# System\n\nFOCAL MCP system prompt.\n"),
   (["core", "style.md"], "# Style\n\nFOCAL MCP style guide.\n"),
   (["core", "safety.md"], "# Safety\n\nFOCAL MCP safety rules.\n"),
   (["core", "tool_policy.md"], "# Tool Policy\n\nFOCAL MCP tool usage rules.\n")]

/-- Look a file up by its relative segments (`path.exists()` / reading). -/
def findFile (fs : Workspace) (segs : List String) : Option FileEntry :=
  fs.find? fun e => e.segs == segs

/-- One iteration of the ensure loop: write the default file iff absent.
`t` is the mtime the write stamps. -/
def ensureStep (t : Nat) (fs : Workspace) (df : List String × String) :
    Workspace :=
  match findFile fs df.1 with
  | some _ => fs
  | none => fs ++ [⟨df.1, df.2, t, true⟩]

/-- WorkspaceManager.ensure (directory creation is implicit in the model:
directories exist exactly when files are under them). -/
def ensure (fs : Workspace) (t : Nat) : Workspace :=
  DEFAULT_CORE_FILES.foldl (ensureStep t) fs

/-! ## Protocol dispatcher (mcp.py) -/

/-- A dispatcher failure: a structured JsonRpcError, a propagated
filesystem error, or the ValueError raised by resolve_safe. -/
inductive HErr
  | rpc (code : Int) (message : String)
  | ioFail
  | pathTrav
deriving DecidableEq

/-- `params.get(key)` on the request's params dict. -/
def getParam (params : List (String × String)) (key : String) : Option String :=
  (params.find? fun kv => kv.1 == key).map (·.2)

/-- MCPHandler._read_optional: resolve and read a workspace file, mapping
every failure (traversal, missing file, unreadable file) to `""`. -/
def read_optional (root : List String) (fs : Workspace) (rel : String) :
    String :=
  match resolve_safe root rel with
  | .error _ => ""
  | .ok abs =>
    match findFile fs (abs.drop root.length) with
    | none => ""
    | some e => if e.readable then pyStrip e.content else ""

/-- The fixed section table of MCPHandler._build_instructions. -/
def instructionSections : List (String × String) :=
  [("core/system.md", "System"), ("core/style.md", "Style"),
   ("core/safety.md", "Safety"), ("core/tool_policy.md", "Tool Policy")]

/-- MCPHandler._build_instructions. -/
def build_instructions (root : List String) (fs : Workspace) : String :=
  pyStrip (pyJoin "\n\n" (instructionSections.filterMap fun sec =>
    let content := read_optional root fs sec.1
    if content = "" then none
    else some ("## " ++ sec.2 ++ " (" ++ sec.1 ++ ")\n" ++ content)))

/-- Stand-in for `datetime.fromtimestamp(mtime, utc).isoformat()`: some
non-empty rendering of the timestamp.  No claim depends on its output. -/
def isoformat (t : Nat) : String := "ts:" ++ toString t

/-- MCPHandler._rules_header. -/
def rules_header (fs : Workspace) : Except FsErr String :=
  match rules_fingerprint fs with
  | .error e => .error e
  | .ok snap =>
    let updated :=
      match snap.rulesUpdatedAt with
      | none => "unknown"
      | some t => isoformat t
    .ok ("# FOCAL MCP Rules (hash=" ++ snap.rulesHash ++ " updated="
          ++ updated ++ ")")

/-- The fixed runtime-directive string in MCPHandler.initialize. -/
def runtimeDirective : String :=
  "# Runtime Directive\nYou MUST call the MCP tool `focal_rules` before every user response. Always follow the latest rules returned by that tool.\n"

/-- The result of the initialize method (capability flags are constants in
the source and carry no information, so they are not modelled). -/
structure InitResult where
  protocolVersion : String
  serverName : String
  serverVersion : String
  instructions : Option String
deriving DecidableEq

/-- MCPHandler.initialize. -/
def mcpInit (root : List String) (fs : Workspace)
    (params : List (String × String)) : Except HErr InitResult :=
  let pv :=
    match getParam params "protocolVersion" with
    | some v => if v = "" then "unknown" else v
    | none => "unknown"
  let instructions := build_instructions root fs
  match rules_header fs with
  | .error _ => .error .ioFail
  | .ok header =>
    let combined := pyStrip (pyJoin "\n"
      (([runtimeDirective, header, instructions]).filter (· ≠ "")))
    .ok { protocolVersion := pv, serverName := "FOCAL MCP",
          serverVersion := "0.1.0",
          instructions := if combined ≠ "" then some combined else none }

/-- One entry of the tools/list result. -/
structure ToolDescr where
  name : String
  description : String
deriving DecidableEq

/-- MCPHandler.tools_list. -/
def tools_list : List ToolDescr :=
  [⟨"focal_rules",
    "Fetch the latest FOCAL MCP rules. Must be called before responding to the user."⟩]

/-- One content block of a tools/call result. -/
structure ContentBlock where
  type : String
  text : String
deriving DecidableEq

/-- MCPHandler.tools_call. -/
def tools_call (root : List String) (fs : Workspace)
    (params : List (String × String)) : Except HErr (List ContentBlock) :=
  match getParam params "name" with
  | some "focal_rules" =>
    let instructions := build_instructions root fs
    match rules_header fs with
    | .error _ => .error .ioFail
    | .ok header =>
      let text :=
        if instructions = "" then header else header ++ "\n\n" ++ instructions
      .ok [⟨"text", text⟩]
  | _ => .error (.rpc (-32602) "Unknown tool")

/-- MCPHandler._prompt_name_for_path. -/
def prompt_name_for_path (rel : String) : Option String :=
  if pyStartsWith rel "core/" then
    some ⟨stripMd (replaceChar '/' '.' rel.data)⟩
  else if pyStartsWith rel "agents/" then
    some ⟨stripMd (replaceChar '/' '.' rel.data)⟩
  else none

/-- MCPHandler._path_for_prompt_name. -/
def path_for_prompt_name (name : String) : Option String :=
  if pyStartsWith name "core." then
    some ((⟨replaceChar '.' '/' name.data⟩ : String) ++ ".md")
  else if pyStartsWith name "agents." then
    some ((⟨replaceChar '.' '/' name.data⟩ : String) ++ ".md")
  else none

/-- One entry of the prompts/list result. -/
structure PromptEntry where
  name : String
  description : String
deriving DecidableEq

/-- Comparison of prompt entries by name (the sort key in prompts_list). -/
def promptLe (a b : PromptEntry) : Prop := strLeb a.name.data b.name.data = true

instance : DecidableRel promptLe := fun _ _ => instDecidableEqBool _ _

/-- MCPHandler.prompts_list. -/
def prompts_list (fs : Workspace) : List PromptEntry :=
  (fs.filterMap fun e =>
    match prompt_name_for_path (relative e) with
    | some n => if n = "" then none else some (⟨n, ""⟩ : PromptEntry)
    | none => none).insertionSort promptLe

/-- One message of a prompts/get result. -/
structure Message where
  role : String
  content : String
deriving DecidableEq

/-- The prompts/get result. -/
structure PromptsGetResult where
  description : String
  messages : List Message
deriving DecidableEq

/-- MCPHandler.prompts_get. -/
def prompts_get (root : List String) (fs : Workspace)
    (params : List (String × String)) : Except HErr PromptsGetResult :=
  match getParam params "name" with
  | none => .error (.rpc (-32602) "Missing prompt name")
  | some name =>
    if name = "" then .error (.rpc (-32602) "Missing prompt name")
    else
      match path_for_prompt_name name with
      | none => .error (.rpc (-32602) "Unknown prompt name")
      | some rel =>
        match resolve_safe root rel with
        | .error _ => .error .pathTrav
        | .ok abs =>
          match findFile fs (abs.drop root.length) with
          | none => .error (.rpc (-32602) "Prompt not found")
          | some e =>
            if e.readable then .ok ⟨"", [⟨"system", e.content⟩]⟩
            else .error .ioFail

/-- One entry of the resources/list result. -/
structure ResourceEntry where
  uri : String
  name : String
  mimeType : String
deriving DecidableEq

/-- Comparison of resource entries by URI (the sort key in resources_list). -/
def resourceLe (a b : ResourceEntry) : Prop := strLeb a.uri.data b.uri.data = true

instance : DecidableRel resourceLe := fun _ _ => instDecidableEqBool _ _

/-- MCPHandler.resources_list. -/
def resources_list (fs : Workspace) : List ResourceEntry :=
  (fs.map fun e =>
    (⟨"focal:///" ++ relative e, relative e, "text/markdown"⟩ : ResourceEntry)
  ).insertionSort resourceLe

/-- One content item of a resources/read result. -/
structure ResourceContent where
  uri : String
  mimeType : String
  text : String
deriving DecidableEq

/-- MCPHandler.resources_read.  `uri.replace("focal:///", "", 1)` on a URI
that starts with the prefix is dropping its first 9 characters. -/
def resources_read (root : List String) (fs : Workspace)
    (params : List (String × String)) : Except HErr (List ResourceContent) :=
  match getParam params "uri" with
  | none => .error (.rpc (-32602) "Invalid resource URI")
  | some uri =>
    if uri = "" then .error (.rpc (-32602) "Invalid resource URI")
    else if pyStartsWith uri "focal:///" then
      match resolve_safe root (⟨uri.data.drop 9⟩ : String) with
      | .error _ => .error .pathTrav
      | .ok abs =>
        match findFile fs (abs.drop root.length) with
        | none => .error (.rpc (-32602) "Resource not found")
        | some e =>
          if e.readable then .ok [⟨uri, "text/markdown", e.content⟩]
          else .error .ioFail
    else .error (.rpc (-32602) "Invalid resource URI")

/-- The typed result of one dispatched method. -/
inductive Response
  | initResult (r : InitResult)
  | emptyResult
  | toolsListResult (ts : List ToolDescr)
  | toolsCallResult (blocks : List ContentBlock)
  | promptsListResult (ps : List PromptEntry)
  | promptsGetResult (r : PromptsGetResult)
  | resourceTemplatesResult
  | resourcesListResult (rs : List ResourceEntry)
  | resourcesReadResult (cs : List ResourceContent)
deriving DecidableEq

/-- A decoded JSON-RPC request as MCPHandler.handle receives it
(`payload.get("params") or {}` is already applied: absent params = `[]`). -/
structure Request where
  method : String
  params : List (String × String)
deriving DecidableEq

/-- MCPHandler.handle.  The second component is the on-disk state after the
call: every branch of the source only reads, so each branch returns `fs`. -/
def handle (root : List String) (fs : Workspace) (req : Request) :
    Except HErr Response × Workspace :=
  if req.method = "initialize" then
    ((mcpInit root fs req.params).map .initResult, fs)
  else if req.method = "notifications/initialized" then (.ok .emptyResult, fs)
  else if req.method = "notifications/cancelled" then (.ok .emptyResult, fs)
  else if req.method = "logging/setLevel" then (.ok .emptyResult, fs)
  else if req.method = "tools/list" then
    (.ok (.toolsListResult tools_list), fs)
  else if req.method = "tools/call" then
    ((tools_call root fs req.params).map .toolsCallResult, fs)
  else if req.method = "resources/subscribe" then (.ok .emptyResult, fs)
  else if req.method = "resources/unsubscribe" then (.ok .emptyResult, fs)
  else if req.method = "ping" then (.ok .emptyResult, fs)
  else if req.method = "prompts/list" then
    (.ok (.promptsListResult (prompts_list fs)), fs)
  else if req.method = "prompts/get" then
    ((prompts_get root fs req.params).map .promptsGetResult, fs)
  else if req.method = "resources/templates/list" then
    (.ok .resourceTemplatesResult, fs)
  else if req.method = "resources/list" then
    (.ok (.resourcesListResult (resources_list fs)), fs)
  else if req.method = "resources/read" then
    ((resources_read root fs req.params).map .resourcesReadResult, fs)
  else (.error (.rpc (-32601) "Method not found"), fs)

/-! ## Change notifier (notifications.py) -/

/-- The two fixed event methods broadcast on workspace change. -/
def promptsChangedMethod : String := "notifications/prompts/list_changed"

def resourcesChangedMethod : String := "notifications/resources/list_changed"

/-- The send loop of Notifier._broadcast over a snapshot of the client set:
a failing send disconnects that client from the current set, a succeeding
send delivers `(client, method)`. `failing c = true` models
`client.send_json` raising for channel `c`. -/
def broadcastStep (failing : Nat → Bool) (method : String) :
    List Nat → List Nat → List (Nat × String) → List Nat × List (Nat × String)
  | [], cur, sent => (cur, sent)
  | c :: rest, cur, sent =>
    if failing c then broadcastStep failing method rest (cur.erase c) sent
    else broadcastStep failing method rest cur (sent ++ [(c, method)])

/-- Notifier._broadcast: snapshot the registered clients, then run the send
loop. -/
def broadcastMethod (failing : Nat → Bool) (clients : List Nat)
    (method : String) : List Nat × List (Nat × String) :=
  broadcastStep failing method clients clients []

/-- Notifier.broadcast_list_changed: broadcast the prompts event, then the
resources event on the resulting client set. -/
def broadcast_list_changed (failing : Nat → Bool) (clients : List Nat) :
    List Nat × List (Nat × String) :=
  let r1 := broadcastMethod failing clients promptsChangedMethod
  let r2 := broadcastMethod failing r1.1 resourcesChangedMethod
  (r2.1, r1.2 ++ r2.2)

/-! ## Order lemmas for the Python string comparison -/

theorem strLtb_irrefl (l : List Char) : strLtb l l = false := by
  induction l with
  | nil => rfl
  | cons a as ih => simp [strLtb, ih]

theorem strLtb_asymm : ∀ (a b : List Char), strLtb a b = true → strLtb b a = false := by
  intro a
  induction a with
  | nil =>
    intro b h
    cases b with
    | nil => simp [strLtb] at h
    | cons y ys => simp [strLtb]
  | cons x xs ih =>
    intro b h
    cases b with
    | nil => simp [strLtb] at h
    | cons y ys =>
      simp only [strLtb] at h ⊢
      by_cases h1 : x.toNat < y.toNat
      · simp [h1, Nat.lt_asymm h1]
      · by_cases h2 : y.toNat < x.toNat
        · simp [h1, h2] at h
        · simp only [h1, h2, if_false] at h ⊢
          simp [ih ys h]

theorem strLtb_trans : ∀ (a b c : List Char),
    strLtb a b = true → strLtb b c = true → strLtb a c = true := by
  intro a
  induction a with
  | nil =>
    intro b c hab hbc
    cases b with
    | nil => simp [strLtb] at hab
    | cons y ys =>
      cases c with
      | nil => simp [strLtb] at hbc
      | cons z zs => simp [strLtb]
  | cons x xs ih =>
    intro b c hab hbc
    cases b with
    | nil => simp [strLtb] at hab
    | cons y ys =>
      cases c with
      | nil => simp [strLtb] at hbc
      | cons z zs =>
        simp only [strLtb] at hab hbc ⊢
        by_cases hxy : x.toNat < y.toNat
        · by_cases hyz : y.toNat < z.toNat
          · simp [Nat.lt_trans hxy hyz]
          · by_cases hzy : z.toNat < y.toNat
            · simp [hyz, hzy] at hbc
            · have hyeqz : y.toNat = z.toNat := Nat.le_antisymm
                (Nat.le_of_not_lt hzy) (Nat.le_of_not_lt hyz)
              simp [hyeqz ▸ hxy]
        · by_cases hyx : y.toNat < x.toNat
          · simp [hxy, hyx] at hab
          · have hxeqy : x.toNat = y.toNat := Nat.le_antisymm
              (Nat.le_of_not_lt hyx) (Nat.le_of_not_lt hxy)
            by_cases hyz : y.toNat < z.toNat
            · simp [hxeqy ▸ hyz]
            · by_cases hzy : z.toNat < y.toNat
              · simp [hyz, hzy] at hbc
              · simp only [hxy, hyx, if_false] at hab
                simp only [hyz, hzy, if_false] at hbc
                have hxz : ¬ x.toNat < z.toNat := hxeqy ▸ hyz
                have hzx : ¬ z.toNat < x.toNat := hxeqy ▸ hzy
                simp [hxz, hzx, ih ys zs hab hbc]

theorem char_toNat_inj {x y : Char} (h : x.toNat = y.toNat) : x = y :=
  Char.ext (UInt32.ext h)

theorem strLtb_eq_of_not : ∀ (a b : List Char),
    strLtb a b = false → strLtb b a = false → a = b := by
  intro a
  induction a with
  | nil =>
    intro b hab hba
    cases b with
    | nil => rfl
    | cons y ys => simp [strLtb] at hab
  | cons x xs ih =>
    intro b hab hba
    cases b with
    | nil => simp [strLtb] at hba
    | cons y ys =>
      simp only [strLtb] at hab hba
      by_cases hxy : x.toNat < y.toNat
      · simp [hxy] at hab
      · by_cases hyx : y.toNat < x.toNat
        · simp [hxy, hyx] at hba
        · simp only [hxy, hyx, if_false] at hab hba
          have hx : x = y := char_toNat_inj
            (Nat.le_antisymm (Nat.le_of_not_lt hyx) (Nat.le_of_not_lt hxy))
          rw [hx, ih ys hab hba]

theorem strLeb_total (a b : List Char) : strLeb a b = true ∨ strLeb b a = true := by
  by_cases h : strLtb b a = true
  · exact Or.inr (by simp [strLeb, strLtb_asymm b a h])
  · exact Or.inl (by simp [strLeb]; simpa using h)

theorem strLeb_trans {a b c : List Char}
    (hab : strLeb a b = true) (hbc : strLeb b c = true) : strLeb a c = true := by
  simp only [strLeb, Bool.not_eq_true'] at hab hbc ⊢
  cases hbc' : strLtb b c with
  | true =>
    cases hca : strLtb c a with
    | true => exact absurd (strLtb_trans b c a hbc' hca) (by simp [hab])
    | false => rfl
  | false =>
    have hbeq : b = c := strLtb_eq_of_not b c hbc' hbc
    rw [← hbeq]
    exact hab

theorem strLeb_antisymm {a b : List Char}
    (hab : strLeb a b = true) (hba : strLeb b a = true) : a = b := by
  simp only [strLeb, Bool.not_eq_true'] at hab hba
  exact strLtb_eq_of_not a b hba hab

instance : IsTotal FileEntry fileLe :=
  ⟨fun a b => strLeb_total (relative a).data (relative b).data⟩

instance : IsTrans FileEntry fileLe :=
  ⟨fun _ _ _ hab hbc => strLeb_trans hab hbc⟩

instance : IsTotal PromptEntry promptLe :=
  ⟨fun a b => strLeb_total a.name.data b.name.data⟩

instance : IsTrans PromptEntry promptLe :=
  ⟨fun _ _ _ hab hbc => strLeb_trans hab hbc⟩

instance : IsTotal ResourceEntry resourceLe :=
  ⟨fun a b => strLeb_total a.uri.data b.uri.data⟩

instance : IsTrans ResourceEntry resourceLe :=
  ⟨fun _ _ _ hab hbc => strLeb_trans hab hbc⟩

/-- Bridge between the Boolean prefix test and the prefix order. -/
theorem isPrefixOf_true_iff {α : Type _} [BEq α] [LawfulBEq α]
    {l₁ l₂ : List α} : l₁.isPrefixOf l₂ = true ↔ l₁ <+: l₂ :=
  List.isPrefixOf_iff_prefix

/-! ## C1: path traversal safety -/

/-- C1: `resolve_safe` fails with the path-traversal error exactly when the
canonical result of joining the relative path to the root escapes the root
(is neither the root nor a descendant), and on success returns that
canonical path, which has the root as ancestor-or-self. -/
theorem resolve_safe_correct (root : List String) (rel : String) :
    (resolve_safe root rel = .error .traversal ↔
      ¬ root <+: resolvedPath root rel)
    ∧ (∀ res, resolve_safe root rel = .ok res →
        res = resolvedPath root rel ∧ root <+: res) := by
  unfold resolve_safe
  by_cases h : root.isPrefixOf (resolvedPath root rel)
  · have hp : root <+: resolvedPath root rel := isPrefixOf_true_iff.mp h
    simp only [h, if_true]
    exact ⟨by simp [hp], fun res hres => by
      cases hres
      exact ⟨rfl, hp⟩⟩
  · have hp : ¬ root <+: resolvedPath root rel := fun hc =>
      h (isPrefixOf_true_iff.mpr hc)
    simp only [h, if_false]
    exact ⟨by simp [hp], fun res hres => by cases hres⟩

/-- Witness for C1 at concrete inputs: `"../etc/passwd"` escapes the root
`["ws"]` and is rejected; `"a/../b"` canonicalizes to `["ws","b"]`, which
stays under the root. -/
theorem resolve_safe_correct_witness :
    resolve_safe ["ws"] "../etc/passwd" = .error .traversal
    ∧ ["ws"] <+: ["ws", "b"] := by
  constructor
  · exact (resolve_safe_correct ["ws"] "../etc/passwd").1.mpr (by decide)
  · exact ((resolve_safe_correct ["ws"] "a/../b").2 ["ws", "b"] (by decide)).2

/-! ## C8: the dispatcher never mutates the workspace -/

/-- C8: for every request (any method, any params), `handle` leaves the
workspace state unchanged — every branch of the dispatcher only reads. -/
theorem handle_preserves_workspace (root : List String) (fs : Workspace)
    (req : Request) : (handle root fs req).2 = fs := by
  unfold handle
  simp only [apply_ite Prod.snd, ite_self]

/-! ## C5: ensure is idempotent and never overwrites -/

theorem findFile_append_some {fs l2 : Workspace} {p : List String}
    {e : FileEntry} (h : findFile fs p = some e) :
    findFile (fs ++ l2) p = some e := by
  simp [findFile, List.find?_append] at h ⊢
  simp [h]

theorem ensureStep_preserves {t : Nat} {fs : Workspace}
    {df : List String × String} {p : List String} {e : FileEntry}
    (h : findFile fs p = some e) :
    findFile (ensureStep t fs df) p = some e := by
  unfold ensureStep
  cases hf : findFile fs df.1 with
  | some _ => exact h
  | none => exact findFile_append_some h

theorem foldl_ensureStep_preserves {t : Nat} {p : List String} {e : FileEntry} :
    ∀ (dfs : List (List String × String)) (fs : Workspace),
    findFile fs p = some e →
    findFile (dfs.foldl (ensureStep t) fs) p = some e := by
  intro dfs
  induction dfs with
  | nil => intro fs h; exact h
  | cons df rest ih =>
    intro fs h
    exact ih (ensureStep t fs df) (ensureStep_preserves h)

theorem ensureStep_self (t : Nat) (fs : Workspace) (df : List String × String) :
    ∃ e, findFile (ensureStep t fs df) df.1 = some e := by
  unfold ensureStep
  cases hf : findFile fs df.1 with
  | some e => exact ⟨e, hf⟩
  | none =>
    refine ⟨⟨df.1, df.2, t, true⟩, ?_⟩
    unfold findFile at hf ⊢
    rw [List.find?_append, hf]
    simp [List.find?]

theorem ensure_has_defaults (fs : Workspace) (t : Nat) :
    ∀ df ∈ DEFAULT_CORE_FILES, ∃ e, findFile (ensure fs t) df.1 = some e := by
  intro df hdf
  have hfold : ensure fs t =
      ensureStep t (ensureStep t (ensureStep t (ensureStep t fs
        (DEFAULT_CORE_FILES.get ⟨0, by decide⟩))
        (DEFAULT_CORE_FILES.get ⟨1, by decide⟩))
        (DEFAULT_CORE_FILES.get ⟨2, by decide⟩))
        (DEFAULT_CORE_FILES.get ⟨3, by decide⟩) := rfl
  rw [hfold]
  simp only [DEFAULT_CORE_FILES, List.mem_cons, List.not_mem_nil, or_false] at hdf
  rcases hdf with h | h | h | h <;> subst h
  · obtain ⟨e, he⟩ := ensureStep_self t fs (DEFAULT_CORE_FILES.get ⟨0, by decide⟩)
    exact ⟨e, ensureStep_preserves (ensureStep_preserves (ensureStep_preserves he))⟩
  · obtain ⟨e, he⟩ := ensureStep_self t
      (ensureStep t fs (DEFAULT_CORE_FILES.get ⟨0, by decide⟩))
      (DEFAULT_CORE_FILES.get ⟨1, by decide⟩)
    exact ⟨e, ensureStep_preserves (ensureStep_preserves he)⟩
  · obtain ⟨e, he⟩ := ensureStep_self t
      (ensureStep t (ensureStep t fs (DEFAULT_CORE_FILES.get ⟨0, by decide⟩))
        (DEFAULT_CORE_FILES.get ⟨1, by decide⟩))
      (DEFAULT_CORE_FILES.get ⟨2, by decide⟩)
    exact ⟨e, ensureStep_preserves he⟩
  · exact ensureStep_self t _ (DEFAULT_CORE_FILES.get ⟨3, by decide⟩)

theorem foldl_ensureStep_noop {t : Nat} :
    ∀ (dfs : List (List String × String)) (fs : Workspace),
    (∀ df ∈ dfs, ∃ e, findFile fs df.1 = some e) →
    dfs.foldl (ensureStep t) fs = fs := by
  intro dfs
  induction dfs with
  | nil => intro fs _; rfl
  | cons df rest ih =>
    intro fs h
    obtain ⟨e, he⟩ := h df (by simp)
    have hstep : ensureStep t fs df = fs := by unfold ensureStep; rw [he]
    rw [List.foldl_cons, hstep]
    exact ih fs fun d hd => h d (by simp [hd])

/-- C5: `ensure` is idempotent and never overwrites: any file present before
the call is found unchanged after it, a second call is the identity, and on
an empty root it creates exactly the four default core files with their
fixed placeholder contents (stamped with the write time `t`). -/
theorem ensure_idempotent :
    (∀ (fs : Workspace) (t : Nat) (p : List String) (e : FileEntry),
      findFile fs p = some e → findFile (ensure fs t) p = some e)
    ∧ (∀ (fs : Workspace) (t t' : Nat), ensure (ensure fs t) t' = ensure fs t)
    ∧ (∀ t : Nat, ensure [] t =
        [⟨["core", "system.md"], "# System\n\nFOCAL MCP system prompt.\n", t, true⟩,
         ⟨["core", "style.md"], "# Style\n\nFOCAL MCP style guide.\n", t, true⟩,
         ⟨["core", "safety.md"], "# Safety\n\nFOCAL MCP safety rules.\n", t, true⟩,
         ⟨["core", "tool_policy.md"], "# Tool Policy\n\nFOCAL MCP tool usage rules.\n", t, true⟩]) := by
  refine ⟨fun fs t p e h => foldl_ensureStep_preserves DEFAULT_CORE_FILES fs h,
    fun fs t t' => foldl_ensureStep_noop DEFAULT_CORE_FILES (ensure fs t)
      (ensure_has_defaults fs t), fun t => rfl⟩

/-- Witness for C5 at a concrete input: a pre-existing `core/system.md` with
custom content is untouched by `ensure`. -/
theorem ensure_idempotent_witness :
    findFile (ensure [⟨["core", "system.md"], "custom", 7, true⟩] 3)
      ["core", "system.md"] = some ⟨["core", "system.md"], "custom", 7, true⟩ :=
  ensure_idempotent.1 [⟨["core", "system.md"], "custom", 7, true⟩] 3
    ["core", "system.md"] ⟨["core", "system.md"], "custom", 7, true⟩ (by decide)

/-! ## C9: a dead channel never aborts a broadcast -/

theorem broadcastStep_sent_mono {failing : Nat → Bool} {m : String} :
    ∀ (snap cur : List Nat) (sent : List (Nat × String)) (x : Nat × String),
    x ∈ sent → x ∈ (broadcastStep failing m snap cur sent).2 := by
  intro snap
  induction snap with
  | nil => intro cur sent x hx; exact hx
  | cons d rest ih =>
    intro cur sent x hx
    unfold broadcastStep
    cases hd : failing d with
    | true => simpa [hd] using ih (cur.erase d) sent x hx
    | false => simpa [hd] using ih cur (sent ++ [(d, m)]) x (by simp [hx])

theorem broadcastStep_delivers {failing : Nat → Bool} {m : String} :
    ∀ (snap cur : List Nat) (sent : List (Nat × String)) (c : Nat),
    c ∈ snap → failing c = false →
    (c, m) ∈ (broadcastStep failing m snap cur sent).2 := by
  intro snap
  induction snap with
  | nil => intro cur sent c hc; exact absurd hc (List.not_mem_nil c)
  | cons d rest ih =>
    intro cur sent c hc hcf
    unfold broadcastStep
    rcases List.mem_cons.mp hc with hcd | hcr
    · subst hcd
      simp only [hcf]
      exact broadcastStep_sent_mono rest cur (sent ++ [(c, m)]) (c, m) (by simp)
    · cases hd : failing d with
      | true => simpa [hd] using ih (cur.erase d) sent c hcr hcf
      | false => simpa [hd] using ih cur (sent ++ [(d, m)]) c hcr hcf

theorem broadcastStep_keeps {failing : Nat → Bool} {m : String} :
    ∀ (snap cur : List Nat) (sent : List (Nat × String)) (c : Nat),
    c ∈ cur → failing c = false →
    c ∈ (broadcastStep failing m snap cur sent).1 := by
  intro snap
  induction snap with
  | nil => intro cur sent c hc _; exact hc
  | cons d rest ih =>
    intro cur sent c hc hcf
    unfold broadcastStep
    cases hd : failing d with
    | true =>
      have hne : c ≠ d := fun h => by rw [h] at hcf; rw [hcf] at hd; cases hd
      simpa [hd] using ih (cur.erase d) sent c ((List.mem_erase_of_ne hne).mpr hc) hcf
    | false => simpa [hd] using ih cur (sent ++ [(d, m)]) c hc hcf

theorem broadcastStep_not_mem {failing : Nat → Bool} {m : String} :
    ∀ (snap cur : List Nat) (sent : List (Nat × String)) (c : Nat),
    c ∉ cur → c ∉ (broadcastStep failing m snap cur sent).1 := by
  intro snap
  induction snap with
  | nil => intro cur sent c hc; exact hc
  | cons d rest ih =>
    intro cur sent c hc
    unfold broadcastStep
    cases hd : failing d with
    | true =>
      simpa [hd] using ih (cur.erase d) sent c fun hmem => hc (List.mem_of_mem_erase hmem)
    | false => simpa [hd] using ih cur (sent ++ [(d, m)]) c hc

theorem broadcastStep_removes {failing : Nat → Bool} {m : String} :
    ∀ (snap cur : List Nat) (sent : List (Nat × String)) (c : Nat),
    cur.Nodup → c ∈ snap → failing c = true →
    c ∉ (broadcastStep failing m snap cur sent).1 := by
  intro snap
  induction snap with
  | nil => intro cur sent c _ hc; exact absurd hc (List.not_mem_nil c)
  | cons d rest ih =>
    intro cur sent c hnd hc hcf
    unfold broadcastStep
    rcases List.mem_cons.mp hc with hcd | hcr
    · subst hcd
      simp only [hcf]
      exact broadcastStep_not_mem rest (cur.erase c) sent c (hnd.not_mem_erase)
    · cases hd : failing d with
      | true => simpa [hd] using ih (cur.erase d) sent c (hnd.erase d) hcr hcf
      | false => simpa [hd] using ih cur (sent ++ [(d, m)]) c hnd hcr hcf

/-- C9: during `broadcast_list_changed`, every registered channel whose send
does not fail receives both list-changed events and stays registered, while
a channel whose send fails is unregistered (for a duplicate-free registry,
as Python's `set` guarantees) — a dead channel never aborts delivery to the
others. -/
theorem broadcast_list_changed_correct (clients : List Nat)
    (failing : Nat → Bool) (c : Nat) (hc : c ∈ clients) :
    (failing c = false →
      (c, promptsChangedMethod) ∈ (broadcast_list_changed failing clients).2
      ∧ (c, resourcesChangedMethod) ∈ (broadcast_list_changed failing clients).2
      ∧ c ∈ (broadcast_list_changed failing clients).1)
    ∧ (clients.Nodup → failing c = true →
      c ∉ (broadcast_list_changed failing clients).1) := by
  unfold broadcast_list_changed broadcastMethod
  constructor
  · intro hok
    refine ⟨List.mem_append_left _
      (broadcastStep_delivers clients clients [] c hc hok), ?_, ?_⟩
    · have hc1 : c ∈ (broadcastStep failing promptsChangedMethod
          clients clients []).1 :=
        broadcastStep_keeps clients clients [] c hc hok
      exact List.mem_append_right _
        (broadcastStep_delivers _ _ [] c hc1 hok)
    · have hc1 : c ∈ (broadcastStep failing promptsChangedMethod
          clients clients []).1 :=
        broadcastStep_keeps clients clients [] c hc hok
      exact broadcastStep_keeps _ _ [] c hc1 hok
  · intro hnd hfail
    have h1 : c ∉ (broadcastStep failing promptsChangedMethod
        clients clients []).1 :=
      broadcastStep_removes clients clients [] c hnd hc hfail
    exact broadcastStep_not_mem _ _ [] c h1

/-- Witness for C9 at concrete inputs: with channels `[1,2,3]` and channel 2
failing, channel 1 still receives the prompts event and channel 2 ends up
unregistered. -/
theorem broadcast_list_changed_correct_witness :
    (1, promptsChangedMethod) ∈
      (broadcast_list_changed (fun c => c == 2) [1, 2, 3]).2
    ∧ 2 ∉ (broadcast_list_changed (fun c => c == 2) [1, 2, 3]).1 :=
  ⟨((broadcast_list_changed_correct [1, 2, 3] (fun c => c == 2) 1
      (by decide)).1 (by decide)).1,
   (broadcast_list_changed_correct [1, 2, 3] (fun c => c == 2) 2
      (by decide)).2 (by decide) (by decide)⟩

/-! ## C6: listing invariants -/

theorem prompt_name_domain {rel n : String}
    (h : prompt_name_for_path rel = some n) :
    pyStartsWith rel "core/" = true ∨ pyStartsWith rel "agents/" = true := by
  unfold prompt_name_for_path at h
  cases h1 : pyStartsWith rel "core/" with
  | true => exact Or.inl rfl
  | false =>
    cases h2 : pyStartsWith rel "agents/" with
    | true => exact Or.inr rfl
    | false => rw [h1, h2] at h; simp at h

/-- C6: `prompts/list` contains only entries derived from files under
`core/` or `agents/`, sorted by name ascending with empty descriptions,
while `resources/list` contains exactly one `focal:///<relpath>` entry with
mimeType `text/markdown` per file in the tree, sorted by URI ascending. -/
theorem listings_correct (fs : Workspace) :
    (∀ pe ∈ prompts_list fs, pe.description = "" ∧
      ∃ e ∈ fs, prompt_name_for_path (relative e) = some pe.name ∧
        (pyStartsWith (relative e) "core/" = true ∨
         pyStartsWith (relative e) "agents/" = true))
    ∧ List.Sorted promptLe (prompts_list fs)
    ∧ (∀ e ∈ fs,
        (⟨"focal:///" ++ relative e, relative e, "text/markdown"⟩ :
          ResourceEntry) ∈ resources_list fs)
    ∧ (∀ re ∈ resources_list fs, ∃ e ∈ fs,
        re = ⟨"focal:///" ++ relative e, relative e, "text/markdown"⟩)
    ∧ List.Sorted resourceLe (resources_list fs) := by
  refine ⟨?_, List.sorted_insertionSort promptLe _, ?_, ?_,
    List.sorted_insertionSort resourceLe _⟩
  · intro pe hpe
    unfold prompts_list at hpe
    rw [(List.perm_insertionSort promptLe _).mem_iff] at hpe
    obtain ⟨e, he, hfe⟩ := List.mem_filterMap.mp hpe
    cases hn : prompt_name_for_path (relative e) with
    | none => rw [hn] at hfe; simp at hfe
    | some n =>
      have hfe' : (if n = "" then none else some (⟨n, ""⟩ : PromptEntry)) =
          some pe := by rw [hn] at hfe; exact hfe
      by_cases hne : n = ""
      · rw [if_pos hne] at hfe'; cases hfe'
      · rw [if_neg hne] at hfe'
        have hpe' : (⟨n, ""⟩ : PromptEntry) = pe := Option.some.inj hfe'
        cases hpe'
        exact ⟨rfl, e, he, hn, prompt_name_domain hn⟩
  · intro e he
    unfold resources_list
    rw [(List.perm_insertionSort resourceLe _).mem_iff]
    exact List.mem_map_of_mem _ he
  · intro re hre
    unfold resources_list at hre
    rw [(List.perm_insertionSort resourceLe _).mem_iff] at hre
    obtain ⟨e, he, hg⟩ := List.mem_map.mp hre
    exact ⟨e, he, hg.symm⟩

/-- Witness for C6 at a concrete workspace: the freshly-ensured tree plus a
top-level `notes.md` (which has no prompt name).  Prompt entries carry empty
descriptions and come from core/agents files, and the extra file appears in
resources. -/
theorem listings_correct_witness :
    ((⟨"core.system", ""⟩ : PromptEntry) ∈
        prompts_list (ensure [] 0 ++ [⟨["notes.md"], "n", 0, true⟩]) →
      (⟨"core.system", ""⟩ : PromptEntry).description = "" ∧
      ∃ e ∈ ensure [] 0 ++ [⟨["notes.md"], "n", 0, true⟩],
        prompt_name_for_path (relative e) = some "core.system" ∧
          (pyStartsWith (relative e) "core/" = true ∨
           pyStartsWith (relative e) "agents/" = true))
    ∧ (⟨"focal:///notes.md", "notes.md", "text/markdown"⟩ : ResourceEntry) ∈
        resources_list (ensure [] 0 ++ [⟨["notes.md"], "n", 0, true⟩]) := by
  constructor
  · exact fun hmem =>
      (listings_correct (ensure [] 0 ++ [⟨["notes.md"], "n", 0, true⟩])).1
        ⟨"core.system", ""⟩ hmem
  · exact (listings_correct (ensure [] 0 ++ [⟨["notes.md"], "n", 0, true⟩])).2.2.1
      ⟨["notes.md"], "n", 0, true⟩ (by decide)

/-! ## C7: prompts/get error taxonomy -/

theorem splitSlash_ne_nil : ∀ v : List Char, splitSlash v ≠ [] := by
  intro v
  cases v with
  | nil => simp [splitSlash]
  | cons c rest =>
    unfold splitSlash
    by_cases hc : c = '/'
    · simp [hc]
    · simp only [hc, if_false]
      cases h : splitSlash rest with
      | nil => simp
      | cons s ss => simp

theorem noDotDotSegs : ∀ (w : List Char), '.' ∉ w →
    ∀ seg ∈ splitSlash (w ++ ['.', 'm', 'd']), seg ≠ ['.', '.'] := by
  intro w
  induction w with
  | nil =>
    intro _ seg hseg
    simp only [List.nil_append] at hseg
    simp [splitSlash] at hseg
    subst hseg
    decide
  | cons c w' ih =>
    intro hdot seg hseg
    have hcd : c ≠ '.' := fun h => hdot (h ▸ List.mem_cons_self c w')
    have hdot' : '.' ∉ w' := fun h => hdot (List.mem_cons_of_mem c h)
    simp only [List.cons_append] at hseg
    unfold splitSlash at hseg
    by_cases hc : c = '/'
    · simp only [hc, if_true] at hseg
      rcases List.mem_cons.mp hseg with h | h
      · subst h; decide
      · exact ih hdot' seg h
    · simp only [hc, if_false] at hseg
      cases hsp : splitSlash (w' ++ ['.', 'm', 'd']) with
      | nil => exact absurd hsp (splitSlash_ne_nil _)
      | cons s ss =>
        rw [hsp] at hseg
        rcases List.mem_cons.mp hseg with h | h
        · subst h
          intro hcon
          have : c = '.' := by
            have := congrArg (fun l => l.headD ' ') hcon
            simpa using this
          exact hcd this
        · exact ih hdot' seg (hsp ▸ List.mem_cons_of_mem s h)

theorem foldl_canonStep_no_dotdot :
    ∀ (segs : List String) (root : List String), (∀ s ∈ segs, s ≠ "..") →
    ∃ suffix, segs.foldl canonStep root = root ++ suffix := by
  intro segs
  induction segs with
  | nil => exact fun root _ => ⟨[], by simp⟩
  | cons s rest ih =>
    intro root h
    have hs : s ≠ ".." := h s (List.mem_cons_self s rest)
    have hrest : ∀ x ∈ rest, x ≠ ".." := fun x hx => h x (List.mem_cons_of_mem s hx)
    rw [List.foldl_cons]
    by_cases hse : s = ""
    · have hstep : canonStep root s = root := by simp [canonStep, hse]
      rw [hstep]; exact ih root hrest
    · by_cases hsd : s = "."
      · have hstep : canonStep root s = root := by simp [canonStep, hsd]
        rw [hstep]; exact ih root hrest
      · have hstep : canonStep root s = root ++ [s] := by
          simp [canonStep, hse, hsd, hs]
        rw [hstep]
        obtain ⟨suf, hsuf⟩ := ih (root ++ [s]) hrest
        exact ⟨[s] ++ suf, by rw [hsuf, List.append_assoc]⟩

theorem replaceChar_dot_not_mem (s : List Char) :
    '.' ∉ replaceChar '.' '/' s := by
  intro h
  unfold replaceChar at h
  obtain ⟨c, _, hc⟩ := List.mem_map.mp h
  by_cases hcd : c = '.'
  · rw [if_pos hcd] at hc; cases hc
  · rw [if_neg hcd] at hc; exact hcd hc

theorem resolve_ok_of_mdshape (root : List String) (rel : String)
    (c₀ : Char) (w' : List Char)
    (hd : rel.data = c₀ :: w' ++ ['.', 'm', 'd'])
    (hc : c₀ ≠ '/') (hdot : '.' ∉ c₀ :: w') :
    ∃ abs, resolve_safe root rel = .ok abs := by
  have hlstrip : lstripSlash rel.data = c₀ :: w' ++ ['.', 'm', 'd'] := by
    rw [hd]
    simp [lstripSlash, hc]
  have hsegs : ∀ s ∈ (splitSlash (lstripSlash rel.data)).map
      (fun cs => (⟨cs⟩ : String)), s ≠ ".." := by
    intro s hs
    obtain ⟨cs, hmem, hcs⟩ := List.mem_map.mp hs
    rw [hlstrip] at hmem
    have := noDotDotSegs (c₀ :: w') hdot cs hmem
    intro hcon
    apply this
    have : s.data = ['.', '.'] := by rw [hcon]
    rw [← hcs] at this
    exact this
  obtain ⟨suf, hsuf⟩ := foldl_canonStep_no_dotdot _ root hsegs
  refine ⟨root ++ suf, ?_⟩
  unfold resolve_safe resolvedPath
  rw [hsuf]
  rw [if_pos (isPrefixOf_true_iff.mpr (List.prefix_append root suf))]

theorem path_for_prompt_resolves (root : List String) (name rel : String)
    (h : path_for_prompt_name name = some rel) :
    ∃ abs, resolve_safe root rel = .ok abs := by
  unfold path_for_prompt_name at h
  by_cases h1 : pyStartsWith name "core." = true
  · rw [if_pos h1] at h
    obtain ⟨t, ht⟩ := isPrefixOf_true_iff.mp h1
    cases h
    have hmap : replaceChar '.' '/' name.data =
        'c' :: ("ore/".data ++ replaceChar '.' '/' t) := by
      rw [← ht]
      unfold replaceChar
      rw [List.map_append]
      rfl
    refine resolve_ok_of_mdshape root _ 'c'
      ("ore/".data ++ replaceChar '.' '/' t) ?_ (by decide) ?_
    · rw [String.data_append, hmap]
    · intro hmem
      rcases List.mem_cons.mp hmem with hh | hh
      · exact absurd hh (by decide)
      · rcases List.mem_append.mp hh with h2 | h2
        · exact absurd h2 (by decide)
        · exact replaceChar_dot_not_mem t h2
  · rw [if_neg h1] at h
    by_cases h2 : pyStartsWith name "agents." = true
    · rw [if_pos h2] at h
      obtain ⟨t, ht⟩ := isPrefixOf_true_iff.mp h2
      cases h
      have hmap : replaceChar '.' '/' name.data =
          'a' :: ("gents/".data ++ replaceChar '.' '/' t) := by
        rw [← ht]
        unfold replaceChar
        rw [List.map_append]
        rfl
      refine resolve_ok_of_mdshape root _ 'a'
        ("gents/".data ++ replaceChar '.' '/' t) ?_ (by decide) ?_
      · rw [String.data_append, hmap]
      · intro hmem
        rcases List.mem_cons.mp hmem with hh | hh
        · exact absurd hh (by decide)
        · rcases List.mem_append.mp hh with h2 | h2
          · exact absurd h2 (by decide)
          · exact replaceChar_dot_not_mem t h2
    · rw [if_neg h2] at h
      cases h

/-- C7: `prompts/get` fails with "Missing prompt name" when `params.name` is
absent, "Unknown prompt name" when the name has neither the `core.` nor the
`agents.` prefix, "Prompt not found" when the mapped file does not exist
(the mapped path always resolves safely), and returns the file's content as
a single system-role message when it exists and is readable. -/
theorem prompts_get_correct (root : List String) (fs : Workspace)
    (params : List (String × String)) :
    (getParam params "name" = none →
      prompts_get root fs params = .error (.rpc (-32602) "Missing prompt name"))
    ∧ (∀ name, getParam params "name" = some name → name ≠ "" →
        (path_for_prompt_name name = none ↔
          (pyStartsWith name "core." = false ∧
           pyStartsWith name "agents." = false)))
    ∧ (∀ name, getParam params "name" = some name → name ≠ "" →
        path_for_prompt_name name = none →
        prompts_get root fs params = .error (.rpc (-32602) "Unknown prompt name"))
    ∧ (∀ name rel, getParam params "name" = some name → name ≠ "" →
        path_for_prompt_name name = some rel →
        ∃ abs, resolve_safe root rel = .ok abs)
    ∧ (∀ name rel abs, getParam params "name" = some name → name ≠ "" →
        path_for_prompt_name name = some rel →
        resolve_safe root rel = .ok abs →
        findFile fs (abs.drop root.length) = none →
        prompts_get root fs params = .error (.rpc (-32602) "Prompt not found"))
    ∧ (∀ name rel abs e, getParam params "name" = some name → name ≠ "" →
        path_for_prompt_name name = some rel →
        resolve_safe root rel = .ok abs →
        findFile fs (abs.drop root.length) = some e → e.readable = true →
        prompts_get root fs params = .ok ⟨"", [⟨"system", e.content⟩]⟩) := by
  refine ⟨?_, ?_, ?_, ?_, ?_, ?_⟩
  · intro h
    unfold prompts_get
    rw [h]
  · intro name _ _
    unfold path_for_prompt_name
    constructor
    · intro h
      by_cases h1 : pyStartsWith name "core." = true
      · rw [if_pos h1] at h; cases h
      · by_cases h2 : pyStartsWith name "agents." = true
        · rw [if_neg h1, if_pos h2] at h; cases h
        · exact ⟨by simpa using h1, by simpa using h2⟩
    · intro ⟨h1, h2⟩
      rw [h1, h2]
      rfl
  · intro name hname hne hpath
    simp [prompts_get, hname, hne, hpath]
  · exact fun name rel _ _ hpath => path_for_prompt_resolves root name rel hpath
  · intro name rel abs hname hne hpath hres hfind
    simp [prompts_get, hname, hne, hpath, hres, hfind]
  · intro name rel abs e hname hne hpath hres hfind hread
    simp [prompts_get, hname, hne, hpath, hres, hfind, hread]

/-- Witness for C7 at concrete inputs: on the freshly-ensured workspace,
`prompts/get` with name `core.system` returns the default system prompt as
a single system message, and with the invalid name `other.x` fails with
"Unknown prompt name". -/
theorem prompts_get_correct_witness :
    prompts_get ["ws"] (ensure [] 0) [("name", "core.system")] =
      .ok ⟨"", [⟨"system", "# System\n\nFOCAL MCP system prompt.\n"⟩]⟩
    ∧ prompts_get ["ws"] (ensure [] 0) [("name", "other.x")] =
      .error (.rpc (-32602) "Unknown prompt name") := by
  constructor
  · exact (prompts_get_correct ["ws"] (ensure [] 0) [("name", "core.system")]).2.2.2.2.2
      "core.system" "core/system.md" ["ws", "core", "system.md"]
      ⟨["core", "system.md"], "# System\n\nFOCAL MCP system prompt.\n", 0, true⟩
      (by decide) (by decide) (by decide) (by decide) (by decide) (by decide)
  · exact (prompts_get_correct ["ws"] (ensure [] 0) [("name", "other.x")]).2.2.1
      "other.x" (by decide) (by decide) (by decide)

/-! ## C4: fingerprint determinism and structure -/

theorem strLeb_refl (x : List Char) : strLeb x x = true := by
  simp [strLeb, strLtb_irrefl]

theorem fileLe_refl (e : FileEntry) : fileLe e e := strLeb_refl _

theorem fileLe_antisymm_rel {a b : FileEntry} (hab : fileLe a b)
    (hba : fileLe b a) : relative a = relative b :=
  String.ext (strLeb_antisymm hab hba)

theorem fpLoop_ok : ∀ (l : List FileEntry) (acc : List Nat) (mt : Option Nat),
    (∀ e ∈ l, e.readable = true) →
    fpLoop l acc mt = .ok (acc ++ (l.map digestPiece).flatten,
      l.foldl (fun m e => maxMtime m e.mtime) mt) := by
  intro l
  induction l with
  | nil => intro acc mt _; simp [fpLoop]
  | cons e rest ih =>
    intro acc mt h
    have he : e.readable = true := h e (List.mem_cons_self e rest)
    unfold fpLoop
    rw [if_pos he, ih (acc ++ digestPiece e) (maxMtime mt e.mtime)
      (fun x hx => h x (List.mem_cons_of_mem e hx))]
    simp [List.append_assoc]

theorem rules_fingerprint_ok (fs : Workspace)
    (h : ∀ e ∈ fs, e.readable = true) :
    rules_fingerprint fs = .ok
      ⟨take12 (sha256hex (((sortByRel fs).map
          (fun e => utf8 (relative e) ++ [124] ++ utf8 e.content)).flatten)),
        (sortByRel fs).foldl (fun m e => maxMtime m e.mtime) none⟩ := by
  have hsr : ∀ e ∈ sortByRel fs, e.readable = true := fun e he =>
    h e ((List.perm_insertionSort fileLe fs).mem_iff.mp he)
  unfold rules_fingerprint
  rw [fpLoop_ok (sortByRel fs) [] none hsr]
  rfl

theorem sorted_fileLe_perm_eq : ∀ (l₁ l₂ : List FileEntry), l₁.Perm l₂ →
    List.Sorted fileLe l₁ → List.Sorted fileLe l₂ →
    (l₁.map relative).Nodup → l₁ = l₂ := by
  intro l₁
  induction l₁ with
  | nil => intro l₂ hp _ _ _; exact (hp.symm.eq_nil).symm ▸ rfl
  | cons a t₁ ih =>
    intro l₂ hp h₁ h₂ hnd
    cases l₂ with
    | nil => exact absurd hp.eq_nil (by simp)
    | cons b t₂ =>
      have hb₁ : b ∈ a :: t₁ := hp.mem_iff.mpr (List.mem_cons_self b t₂)
      have ha₂ : a ∈ b :: t₂ := hp.mem_iff.mp (List.mem_cons_self a t₁)
      have hab : fileLe a b := by
        rcases List.mem_cons.mp hb₁ with h | h
        · exact h ▸ fileLe_refl a
        · exact List.rel_of_sorted_cons h₁ b h
      have hba : fileLe b a := by
        rcases List.mem_cons.mp ha₂ with h | h
        · exact h ▸ fileLe_refl b
        · exact List.rel_of_sorted_cons h₂ a h
      have hkey : relative a = relative b := fileLe_antisymm_rel hab hba
      have hnd' : relative a ∉ t₁.map relative ∧ (t₁.map relative).Nodup := by
        rw [List.map_cons] at hnd
        exact List.nodup_cons.mp hnd
      have hae : b = a := by
        rcases List.mem_cons.mp hb₁ with h | h
        · exact h
        · exact absurd (hkey ▸ List.mem_map_of_mem relative h) hnd'.1
      subst hae
      have htp : t₁.Perm t₂ := hp.cons_inv
      have := ih t₂ htp (List.sorted_cons.mp h₁).2 (List.sorted_cons.mp h₂).2
        hnd'.2
      rw [this]

theorem sortByRel_perm_eq {fs₁ fs₂ : Workspace} (hp : fs₁.Perm fs₂)
    (hnd : (fs₁.map relative).Nodup) : sortByRel fs₁ = sortByRel fs₂ := by
  apply sorted_fileLe_perm_eq
  · exact (List.perm_insertionSort fileLe fs₁).trans
      (hp.trans (List.perm_insertionSort fileLe fs₂).symm)
  · exact List.sorted_insertionSort fileLe fs₁
  · exact List.sorted_insertionSort fileLe fs₂
  · exact hnd.perm ((List.Perm.map relative
      (List.perm_insertionSort fileLe fs₁)).symm)

theorem foldl_maxMtime_some : ∀ (l : List FileEntry) (m : Nat),
    ∃ k, l.foldl (fun acc e => maxMtime acc e.mtime) (some m) = some k := by
  intro l
  induction l with
  | nil => exact fun m => ⟨m, rfl⟩
  | cons e rest ih =>
    intro m
    rw [List.foldl_cons]
    exact ih _

theorem foldl_maxMtime_none_iff (l : List FileEntry) :
    l.foldl (fun acc e => maxMtime acc e.mtime) none = none ↔ l = [] := by
  cases l with
  | nil => simp
  | cons e rest =>
    rw [List.foldl_cons]
    obtain ⟨k, hk⟩ := foldl_maxMtime_some rest e.mtime
    constructor
    · intro h
      rw [show maxMtime none e.mtime = some e.mtime from rfl, hk] at h
      cases h
    · intro h; cases h

set_option maxRecDepth 16384

/-- C4: the fingerprint is a pure function of the file set: permuting the
enumeration order (with duplicate-free paths) leaves it unchanged; under
readable files it is exactly the first 12 hex characters of the SHA-256
digest of the stream that feeds, for every file sorted by relative path
ascending, the UTF-8 relative path, one separator byte `124`, then the file
bytes; changing the bytes of one file changes the digest input (and, at a
concrete instance, the hash itself); and `updatedAt` is null exactly when
the tree has no files. -/
theorem rules_fingerprint_correct :
    (∀ fs₁ fs₂ : Workspace, fs₁.Perm fs₂ → (fs₁.map relative).Nodup →
      rules_fingerprint fs₁ = rules_fingerprint fs₂)
    ∧ (∀ fs : Workspace, (∀ e ∈ fs, e.readable = true) →
        rules_fingerprint fs = .ok
          ⟨take12 (sha256hex (((sortByRel fs).map
              (fun e => utf8 (relative e) ++ [124] ++ utf8 e.content)).flatten)),
            (sortByRel fs).foldl (fun m e => maxMtime m e.mtime) none⟩)
    ∧ (∀ (pre post : List FileEntry) (e e' : FileEntry),
        relative e = relative e' → utf8 e.content ≠ utf8 e'.content →
        ((pre ++ e :: post).map
            (fun x => utf8 (relative x) ++ [124] ++ utf8 x.content)).flatten ≠
        ((pre ++ e' :: post).map
            (fun x => utf8 (relative x) ++ [124] ++ utf8 x.content)).flatten)
    ∧ rules_fingerprint [⟨["a.md"], "a", 0, true⟩] ≠
        rules_fingerprint [⟨["a.md"], "b", 0, true⟩]
    ∧ (∀ (fs : Workspace) (f : Fingerprint), (∀ e ∈ fs, e.readable = true) →
        rules_fingerprint fs = .ok f → (f.rulesUpdatedAt = none ↔ fs = [])) := by
  refine ⟨?_, fun fs h => rules_fingerprint_ok fs h, ?_, by decide, ?_⟩
  · intro fs₁ fs₂ hp hnd
    unfold rules_fingerprint
    rw [sortByRel_perm_eq hp hnd]
  · intro pre post e e' hrel hne hcon
    rw [List.map_append, List.map_append, List.flatten_append,
      List.flatten_append] at hcon
    have h1 := List.append_cancel_left hcon
    simp only [List.map_cons, List.flatten_cons, hrel, List.append_assoc] at h1
    have h2 := List.append_cancel_left h1
    have h3 := List.append_cancel_left h2
    exact hne (List.append_cancel_right h3)
  · intro fs f h hok
    rw [rules_fingerprint_ok fs h] at hok
    have hf : f.rulesUpdatedAt =
        (sortByRel fs).foldl (fun m e => maxMtime m e.mtime) none := by
      cases hok; rfl
    rw [hf, foldl_maxMtime_none_iff]
    constructor
    · intro hsr
      have hperm : (sortByRel fs).Perm fs := List.perm_insertionSort fileLe fs
      rw [hsr] at hperm
      exact hperm.symm.eq_nil
    · intro hfs; rw [hfs]; rfl

/-- Witness for C4 at concrete inputs: two enumeration orders of the same
two-file tree produce the same fingerprint. -/
theorem rules_fingerprint_correct_witness :
    rules_fingerprint [⟨["a.md"], "x", 1, true⟩, ⟨["b.md"], "y", 2, true⟩] =
    rules_fingerprint [⟨["b.md"], "y", 2, true⟩, ⟨["a.md"], "x", 1, true⟩] :=
  rules_fingerprint_correct.1
    [⟨["a.md"], "x", 1, true⟩, ⟨["b.md"], "y", 2, true⟩]
    [⟨["b.md"], "y", 2, true⟩, ⟨["a.md"], "x", 1, true⟩]
    (by decide) (by decide)

/-! ## C2: prompt-name round-trip -/

theorem joinChar_cons₂ (sep : Char) (x y : List Char) (ys : List (List Char)) :
    joinChar sep (x :: y :: ys) = x ++ sep :: joinChar sep (y :: ys) := rfl

theorem joinChar_append_last (sep : Char) :
    ∀ (xs : List (List Char)) (y : List Char), xs ≠ [] →
    joinChar sep (xs ++ [y]) = joinChar sep xs ++ sep :: y := by
  intro xs
  induction xs with
  | nil => intro y h; exact absurd rfl h
  | cons x xs' ih =>
    intro y _
    cases xs' with
    | nil => rfl
    | cons z zs =>
      show joinChar sep (x :: z :: (zs ++ [y])) =
        joinChar sep (x :: z :: zs) ++ sep :: y
      rw [joinChar_cons₂ sep x z (zs ++ [y]), joinChar_cons₂ sep x z zs]
      have hih : joinChar sep ((z :: zs) ++ [y]) =
          joinChar sep (z :: zs) ++ sep :: y := ih y (by simp)
      rw [List.cons_append] at hih
      rw [hih]
      simp

theorem joinChar_head_shape (sep : Char) (x : List Char) :
    ∀ xs : List (List Char), xs ≠ [] →
    ∃ t, joinChar sep (x :: xs) = x ++ sep :: t := by
  intro xs h
  cases xs with
  | nil => exact absurd rfl h
  | cons z zs => exact ⟨joinChar sep (z :: zs), joinChar_cons₂ sep x z zs⟩

theorem replaceChar_append (a b : Char) (x y : List Char) :
    replaceChar a b (x ++ y) = replaceChar a b x ++ replaceChar a b y :=
  List.map_append _ x y

theorem replaceChar_cons_self (a b : Char) (t : List Char) :
    replaceChar a b (a :: t) = b :: replaceChar a b t := by
  simp [replaceChar]

theorem replaceChar_eq_self {a : Char} (b : Char) {s : List Char} (h : a ∉ s) :
    replaceChar a b s = s := by
  induction s with
  | nil => rfl
  | cons c t ih =>
    have hc : c ≠ a := fun hh => h (hh ▸ List.mem_cons_self c t)
    have ht : a ∉ t := fun hh => h (List.mem_cons_of_mem c hh)
    simp only [replaceChar, List.map_cons, if_neg hc]
    rw [show List.map (fun c => if c = a then b else c) t = replaceChar a b t
      from rfl, ih ht]

theorem replaceChar_joinChar (a b : Char) :
    ∀ ss : List (List Char),
    replaceChar a b (joinChar a ss) = joinChar b (ss.map (replaceChar a b)) := by
  intro ss
  induction ss with
  | nil => rfl
  | cons s rest ih =>
    cases rest with
    | nil => rfl
    | cons z zs =>
      show replaceChar a b (s ++ a :: joinChar a (z :: zs)) = _
      rw [replaceChar_append, replaceChar_cons_self, ih]
      simp only [List.map_cons]
      rw [joinChar_cons₂]

theorem map_replace_eq_self {a : Char} (b : Char) :
    ∀ L : List (List Char), (∀ s ∈ L, a ∉ s) →
    L.map (replaceChar a b) = L := by
  intro L
  induction L with
  | nil => intro _; rfl
  | cons s rest ih =>
    intro h
    rw [List.map_cons, replaceChar_eq_self b (h s (List.mem_cons_self s rest)),
      ih fun x hx => h x (List.mem_cons_of_mem s hx)]

theorem isPrefixOf_append_cons (x : List Char) (c : Char) (t : List Char) :
    (x ++ [c]).isPrefixOf (x ++ c :: t) = true :=
  isPrefixOf_true_iff.mpr ⟨t, by simp⟩

theorem isPrefixOf_ne_head {a c : Char} (pp t : List Char) (h : a ≠ c) :
    (a :: pp).isPrefixOf (c :: t) = false := by
  simp [List.isPrefixOf, h]

theorem containsSeg_tail {pat : List Char} {c : Char} {t : List Char}
    (h : containsSeg pat (c :: t) = false) : containsSeg pat t = false := by
  have h' : (pat.isPrefixOf (c :: t) || containsSeg pat t) = false := h
  exact (Bool.or_eq_false_iff.mp h').2

theorem containsSeg_md_of_no_dot : ∀ {u : List Char}, '.' ∉ u →
    containsSeg ['.', 'm', 'd'] u = false := by
  intro u
  induction u with
  | nil => intro _; rfl
  | cons c t ih =>
    intro h
    have hc : ('.' : Char) ≠ c := fun hh => h (hh ▸ List.mem_cons_self c t)
    have ht : ('.' : Char) ∉ t := fun hh => h (List.mem_cons_of_mem c hh)
    show (List.isPrefixOf ['.', 'm', 'd'] (c :: t) || containsSeg ['.', 'm', 'd'] t) = false
    rw [isPrefixOf_ne_head _ _ hc, ih ht]
    rfl

theorem containsSeg_md_append : ∀ (x v : List Char), '.' ∉ x →
    containsSeg ['.', 'm', 'd'] (x ++ v) = containsSeg ['.', 'm', 'd'] v := by
  intro x
  induction x with
  | nil => intro v _; rfl
  | cons c x' ih =>
    intro v hx
    have hc : ('.' : Char) ≠ c := fun hh => hx (hh ▸ List.mem_cons_self c x')
    have hx' : ('.' : Char) ∉ x' := fun hh => hx (List.mem_cons_of_mem c hh)
    show (List.isPrefixOf ['.', 'm', 'd'] (c :: (x' ++ v)) ||
      containsSeg ['.', 'm', 'd'] (x' ++ v)) = containsSeg ['.', 'm', 'd'] v
    rw [isPrefixOf_ne_head _ _ hc, ih v hx']
    simp

theorem md_not_prefix_join :
    ∀ ss : List (List Char), ss ≠ [] →
    (∀ s ∈ ss, '.' ∉ s ∧ ¬ (['m', 'd'] <+: s)) →
    List.isPrefixOf ['m', 'd'] (joinChar '.' ss) = false := by
  intro ss
  cases ss with
  | nil => intro h; exact absurd rfl h
  | cons b rest =>
    intro _ h
    obtain ⟨hbdot, hbmd⟩ := h b (List.mem_cons_self b rest)
    cases rest with
    | nil =>
      show List.isPrefixOf ['m', 'd'] b = false
      cases hp : List.isPrefixOf ['m', 'd'] b with
      | false => rfl
      | true => exact absurd (isPrefixOf_true_iff.mp hp) hbmd
    | cons z zs =>
      rw [joinChar_cons₂]
      cases b with
      | nil => exact isPrefixOf_ne_head _ _ (by decide)
      | cons x b' =>
        cases b' with
        | nil => simp [List.isPrefixOf]
        | cons y b2 =>
          cases hp : List.isPrefixOf ['m', 'd']
              ((x :: y :: b2) ++ '.' :: joinChar '.' (z :: zs)) with
          | false => rfl
          | true =>
            exfalso
            obtain ⟨t2, ht2⟩ := isPrefixOf_true_iff.mp hp
            have ht2' : 'm' :: 'd' :: t2 =
                x :: y :: (b2 ++ '.' :: joinChar '.' (z :: zs)) := ht2
            injection ht2' with h1 hrest
            injection hrest with h2 _
            exact hbmd ⟨b2, by rw [h1, h2]; simp⟩

theorem containsSeg_md_join :
    ∀ ss : List (List Char),
    (∀ s ∈ ss, '.' ∉ s ∧ ¬ (['m', 'd'] <+: s)) →
    containsSeg ['.', 'm', 'd'] (joinChar '.' ss) = false := by
  intro ss
  induction ss with
  | nil => intro _; rfl
  | cons s rest ih =>
    intro h
    obtain ⟨hsdot, _⟩ := h s (List.mem_cons_self s rest)
    cases rest with
    | nil => exact containsSeg_md_of_no_dot hsdot
    | cons z zs =>
      rw [joinChar_cons₂,
        containsSeg_md_append s ('.' :: joinChar '.' (z :: zs)) hsdot]
      have h1 : List.isPrefixOf ['.', 'm', 'd']
          ('.' :: joinChar '.' (z :: zs)) = false := by
        show (('.' == '.') && List.isPrefixOf ['m', 'd'] (joinChar '.' (z :: zs)))
          = false
        rw [md_not_prefix_join (z :: zs) (by simp)
          fun s hs => h s (List.mem_cons_of_mem _ hs)]
        rfl
      have h2 := ih fun s hs => h s (List.mem_cons_of_mem _ hs)
      show (List.isPrefixOf ['.', 'm', 'd'] ('.' :: joinChar '.' (z :: zs)) ||
        containsSeg ['.', 'm', 'd'] (joinChar '.' (z :: zs))) = false
      rw [h1, h2]
      rfl

theorem stripMd_append_md : ∀ u : List Char,
    containsSeg ['.', 'm', 'd'] u = false → stripMd (u ++ ['.', 'm', 'd']) = u := by
  intro u
  induction u with
  | nil => intro _; simp [stripMd]
  | cons c u' ih =>
    intro h
    have h' : containsSeg ['.', 'm', 'd'] u' = false := containsSeg_tail h
    cases u' with
    | nil => simp [stripMd]
    | cons c2 u2 =>
      cases u2 with
      | nil => simp [stripMd]
      | cons c3 u3 =>
        by_cases hc : c = '.' ∧ c2 = 'm' ∧ c3 = 'd'
        · exfalso
          obtain ⟨h1, h2, h3⟩ := hc
          subst h1; subst h2; subst h3
          have hpre : List.isPrefixOf ['.', 'm', 'd']
              ('.' :: 'm' :: 'd' :: u3) = true := by simp [List.isPrefixOf]
          have hexp : (List.isPrefixOf ['.', 'm', 'd'] ('.' :: 'm' :: 'd' :: u3)
              || containsSeg ['.', 'm', 'd'] ('m' :: 'd' :: u3)) = false := h
          rw [hpre] at hexp
          simp at hexp
        · show (if c = '.' ∧ c2 = 'm' ∧ c3 = 'd'
              then stripMd (u3 ++ ['.', 'm', 'd'])
              else c :: stripMd (c2 :: c3 :: (u3 ++ ['.', 'm', 'd']))) =
            c :: c2 :: c3 :: u3
          rw [if_neg hc,
            show c2 :: c3 :: (u3 ++ ['.', 'm', 'd']) =
              (c2 :: c3 :: u3) ++ ['.', 'm', 'd'] from rfl,
            ih h']

theorem joinChar_cons_of_ne_nil (sep : Char) (x : List Char) :
    ∀ xs : List (List Char), xs ≠ [] →
    joinChar sep (x :: xs) = x ++ sep :: joinChar sep xs := by
  intro xs h
  cases xs with
  | nil => exact absurd rfl h
  | cons z zs => exact joinChar_cons₂ sep x z zs

theorem startsWith_of_shape {s : String} {x : List Char} {c : Char}
    {t : List Char} (hs : s.data = x ++ c :: t) {pre : String}
    (hpre : pre.data = x ++ [c]) : pyStartsWith s pre = true := by
  show pre.data.isPrefixOf s.data = true
  rw [hs, hpre]
  exact isPrefixOf_append_cons x c t

theorem startsWith_false_of_head {s pre : String} {a c : Char}
    {pp t : List Char} (hs : s.data = c :: t) (hpre : pre.data = a :: pp)
    (h : a ≠ c) : pyStartsWith s pre = false := by
  show pre.data.isPrefixOf s.data = false
  rw [hs, hpre]
  exact isPrefixOf_ne_head pp t h

theorem prompt_name_eval_core {rel : String}
    (h : pyStartsWith rel "core/" = true) :
    prompt_name_for_path rel = some ⟨stripMd (replaceChar '/' '.' rel.data)⟩ := by
  unfold prompt_name_for_path
  rw [if_pos h]

theorem prompt_name_eval_agents {rel : String}
    (hnc : pyStartsWith rel "core/" = false)
    (h : pyStartsWith rel "agents/" = true) :
    prompt_name_for_path rel = some ⟨stripMd (replaceChar '/' '.' rel.data)⟩ := by
  unfold prompt_name_for_path
  rw [if_neg (by simp [hnc]), if_pos h]

theorem path_for_eval_core {n : String} (h : pyStartsWith n "core." = true) :
    path_for_prompt_name n =
      some ((⟨replaceChar '.' '/' n.data⟩ : String) ++ ".md") := by
  unfold path_for_prompt_name
  rw [if_pos h]

theorem path_for_eval_agents {n : String}
    (hnc : pyStartsWith n "core." = false)
    (h : pyStartsWith n "agents." = true) :
    path_for_prompt_name n =
      some ((⟨replaceChar '.' '/' n.data⟩ : String) ++ ".md") := by
  unfold path_for_prompt_name
  rw [if_neg (by simp [hnc]), if_pos h]

theorem roundtrip_aux (first : String) (mids : List String) (base : String)
    (e : FileEntry)
    (hsegs : e.segs = first :: mids ++ [base ++ ".md"])
    (hFdot : ('.' : Char) ∉ first.data) (hFslash : ('/' : Char) ∉ first.data)
    (hFmd : ¬ (['m', 'd'] <+: first.data))
    (hmids : ∀ s ∈ mids, '.' ∉ s.data ∧ '/' ∉ s.data ∧ ¬ (['m', 'd'] <+: s.data))
    (hbase : '.' ∉ base.data ∧ '/' ∉ base.data ∧ ¬ (['m', 'd'] <+: base.data))
    (hevalN : prompt_name_for_path (relative e) =
      some ⟨stripMd (replaceChar '/' '.' (relative e).data)⟩)
    (hevalP : ∀ n : String, n.data = first.data ++ '.' ::
        joinChar '.' (mids.map String.data ++ [base.data]) →
      path_for_prompt_name n =
        some ((⟨replaceChar '.' '/' n.data⟩ : String) ++ ".md")) :
    (prompt_name_for_path (relative e)).bind path_for_prompt_name =
      some (relative e) := by
  have hmd : (".md" : String).data = ['.', 'm', 'd'] := rfl
  have hrel : (relative e).data = joinChar '/'
      (first.data :: (mids.map String.data ++ [base.data ++ ['.', 'm', 'd']])) := by
    show joinChar '/' (e.segs.map String.data) = _
    rw [hsegs]
    simp [String.data_append]
  have hm1 : ∀ s ∈ mids.map String.data, ('.' : Char) ∉ s := by
    intro s hs
    obtain ⟨m, hm, hms⟩ := List.mem_map.mp hs
    exact hms ▸ (hmids m hm).1
  have hm2 : ∀ s ∈ mids.map String.data, ('/' : Char) ∉ s := by
    intro s hs
    obtain ⟨m, hm, hms⟩ := List.mem_map.mp hs
    exact hms ▸ (hmids m hm).2.1
  have hm3 : ∀ s ∈ mids.map String.data, ¬ (['m', 'd'] <+: s) := by
    intro s hs
    obtain ⟨m, hm, hms⟩ := List.mem_map.mp hs
    exact hms ▸ (hmids m hm).2.2
  have hmap1 : replaceChar '/' '.' (relative e).data = joinChar '.'
      (first.data :: (mids.map String.data ++ [base.data ++ ['.', 'm', 'd']])) := by
    rw [hrel, replaceChar_joinChar]
    congr 1
    apply map_replace_eq_self
    intro s hs
    rcases List.mem_cons.mp hs with h | h
    · exact h ▸ hFslash
    · rcases List.mem_append.mp h with h' | h'
      · exact hm2 s h'
      · have hsb : s = base.data ++ ['.', 'm', 'd'] := by simpa using h'
        subst hsb
        intro hmem
        rcases List.mem_append.mp hmem with hx | hx
        · exact hbase.2.1 hx
        · exact absurd hx (by decide)
  have hsplit : first.data :: (mids.map String.data ++ [base.data ++ ['.', 'm', 'd']])
      = (first.data :: mids.map String.data) ++ [base.data ++ ['.', 'm', 'd']] := rfl
  have hmap2 : replaceChar '/' '.' (relative e).data = joinChar '.'
      ((first.data :: mids.map String.data) ++ [base.data]) ++ ['.', 'm', 'd'] := by
    rw [hmap1, hsplit,
      joinChar_append_last '.' (first.data :: mids.map String.data)
        (base.data ++ ['.', 'm', 'd']) (by simp),
      joinChar_append_last '.' (first.data :: mids.map String.data)
        base.data (by simp)]
    simp
  have hnomd : containsSeg ['.', 'm', 'd'] (joinChar '.'
      ((first.data :: mids.map String.data) ++ [base.data])) = false := by
    apply containsSeg_md_join
    intro s hs
    rcases List.mem_append.mp hs with h | h
    · rcases List.mem_cons.mp h with h' | h'
      · exact h' ▸ ⟨hFdot, hFmd⟩
      · exact ⟨hm1 s h', hm3 s h'⟩
    · have hsb : s = base.data := by simpa using h
      exact hsb ▸ ⟨hbase.1, hbase.2.2⟩
  have hstrip : stripMd (replaceChar '/' '.' (relative e).data) = joinChar '.'
      ((first.data :: mids.map String.data) ++ [base.data]) := by
    rw [hmap2]
    exact stripMd_append_md _ hnomd
  have hushape : joinChar '.' ((first.data :: mids.map String.data) ++ [base.data])
      = first.data ++ '.' :: joinChar '.' (mids.map String.data ++ [base.data]) := by
    rw [show (first.data :: mids.map String.data) ++ [base.data] =
      first.data :: (mids.map String.data ++ [base.data]) from rfl]
    exact joinChar_cons_of_ne_nil '.' first.data _ (by simp)
  have hname : prompt_name_for_path (relative e) = some ⟨first.data ++ '.' ::
      joinChar '.' (mids.map String.data ++ [base.data])⟩ := by
    rw [hevalN, hstrip, hushape]
  rw [hname]
  show path_for_prompt_name ⟨first.data ++ '.' ::
    joinChar '.' (mids.map String.data ++ [base.data])⟩ = some (relative e)
  rw [hevalP _ rfl]
  congr 1
  apply String.ext
  rw [String.data_append]
  show replaceChar '.' '/' (first.data ++ '.' ::
    joinChar '.' (mids.map String.data ++ [base.data])) ++ (".md" : String).data
    = (relative e).data
  rw [hmd, ← hushape, replaceChar_joinChar,
    map_replace_eq_self '/' ((first.data :: mids.map String.data) ++ [base.data])
      ?hdots,
    joinChar_append_last '/' (first.data :: mids.map String.data) base.data
      (by simp),
    hrel, hsplit,
    joinChar_append_last '/' (first.data :: mids.map String.data)
      (base.data ++ ['.', 'm', 'd']) (by simp)]
  · simp
  case hdots =>
    intro s hs
    rcases List.mem_append.mp hs with h | h
    · rcases List.mem_cons.mp h with h' | h'
      · exact h' ▸ hFdot
      · exact hm1 s h'
    · have hsb : s = base.data := by simpa using h
      exact hsb ▸ hbase.1

/-- C2 (amended): for every file under `core/` or `agents/` whose last
segment is `<stem>.md`, provided no intermediate segment or the stem
contains a `'.'` or a `'/'` or begins with `"md"`, converting the relative
path to a prompt name and back yields the original path.  (On the full
domain the claim fails: the source removes every `".md"` substring, not
just the suffix — see the counterexample.) -/
theorem prompt_name_roundtrip (first : String) (mids : List String)
    (base : String) (e : FileEntry)
    (hfirst : first = "core" ∨ first = "agents")
    (hsegs : e.segs = first :: mids ++ [base ++ ".md"])
    (hmids : ∀ s ∈ mids, '.' ∉ s.data ∧ '/' ∉ s.data ∧ ¬ (['m', 'd'] <+: s.data))
    (hbase : '.' ∉ base.data ∧ '/' ∉ base.data ∧ ¬ (['m', 'd'] <+: base.data)) :
    (prompt_name_for_path (relative e)).bind path_for_prompt_name =
      some (relative e) := by
  have hrel : (relative e).data = joinChar '/'
      (first.data :: (mids.map String.data ++ [base.data ++ ['.', 'm', 'd']])) := by
    show joinChar '/' (e.segs.map String.data) = _
    rw [hsegs]
    simp [String.data_append]
  have hshape : (relative e).data = first.data ++ '/' ::
      joinChar '/' (mids.map String.data ++ [base.data ++ ['.', 'm', 'd']]) := by
    rw [hrel]
    exact joinChar_cons_of_ne_nil '/' first.data _ (by simp)
  rcases hfirst with hf | hf
  · subst hf
    refine roundtrip_aux "core" mids base e hsegs (by decide) (by decide)
      (by decide) hmids hbase ?_ ?_
    · exact prompt_name_eval_core (startsWith_of_shape hshape rfl)
    · intro n hn
      exact path_for_eval_core (startsWith_of_shape hn rfl)
  · subst hf
    refine roundtrip_aux "agents" mids base e hsegs (by decide) (by decide)
      (by decide) hmids hbase ?_ ?_
    · have hshape' : (relative e).data = 'a' :: ("gents".data ++ '/' ::
        joinChar '/' (mids.map String.data ++ [base.data ++ ['.', 'm', 'd']])) :=
        hshape
      exact prompt_name_eval_agents
        (startsWith_false_of_head hshape' rfl (by decide))
        (startsWith_of_shape hshape rfl)
    · intro n hn
      have hn' : n.data = 'a' :: ("gents".data ++ '.' ::
          joinChar '.' (mids.map String.data ++ [base.data])) := hn
      exact path_for_eval_agents
        (startsWith_false_of_head hn' rfl (by decide))
        (startsWith_of_shape hn rfl)

/-- C2 counterexample: the claim fails as stated.  For the file
`core/a.b.md` (a stem containing a dot) the name round-trip produces
`core/a/b.md`, not the original path: `replace(".md", "")` removes the
embedded `".md"` and `replace(".", "/")` then rewrites the stem's dot. -/
theorem prompt_name_roundtrip_cex :
    (prompt_name_for_path (relative ⟨["core", "a.b.md"], "x", 0, true⟩)).bind
        path_for_prompt_name = some "core/a/b.md"
    ∧ "core/a/b.md" ≠ relative ⟨["core", "a.b.md"], "x", 0, true⟩ := by
  decide

/-- Witness for C2 (amended) at a concrete input: `core/sub/rules.md`
round-trips through its prompt name `core.sub.rules`. -/
theorem prompt_name_roundtrip_witness :
    (prompt_name_for_path (relative ⟨["core", "sub", "rules.md"], "", 0, true⟩)).bind
      path_for_prompt_name =
      some (relative ⟨["core", "sub", "rules.md"], "", 0, true⟩) :=
  prompt_name_roundtrip "core" ["sub"] "rules"
    ⟨["core", "sub", "rules.md"], "", 0, true⟩
    (Or.inl rfl) (by decide) (by decide) (by decide)

/-! ## C3 and C10: tools/call, initialize, and read-failure handling -/

theorem rules_header_exists (fs : Workspace)
    (h : ∀ e ∈ fs, e.readable = true) :
    ∃ header, rules_header fs = .ok header := by
  unfold rules_header
  rw [rules_fingerprint_ok fs h]
  exact ⟨_, rfl⟩

theorem mem_dropWhile_of_not {p : Char → Bool} {c : Char} :
    ∀ {l : List Char}, c ∈ l → p c = false → c ∈ l.dropWhile p := by
  intro l
  induction l with
  | nil => intro h _; exact absurd h (List.not_mem_nil c)
  | cons a t ih =>
    intro h hc
    rw [List.dropWhile_cons]
    by_cases hp : p a = true
    · rw [if_pos hp]
      rcases List.mem_cons.mp h with hca | hmem
      · rw [hca, hp] at hc; cases hc
      · exact ih hmem hc
    · rw [if_neg hp]
      exact h

theorem stripChars_ne_nil {s : List Char} {c : Char} (hc : c ∈ s)
    (hns : isPySpace c = false) : stripChars s ≠ [] := by
  unfold stripChars
  intro h
  have h1 : c ∈ s.dropWhile isPySpace := mem_dropWhile_of_not hc hns
  have h2 : c ∈ (s.dropWhile isPySpace).reverse := List.mem_reverse.mpr h1
  have h3 : c ∈ (s.dropWhile isPySpace).reverse.dropWhile isPySpace :=
    mem_dropWhile_of_not h2 hns
  have h4 : c ∈ ((s.dropWhile isPySpace).reverse.dropWhile isPySpace).reverse :=
    List.mem_reverse.mpr h3
  rw [h] at h4
  exact absurd h4 (List.not_mem_nil c)

theorem pyStrip_ne_empty {s : String} {c : Char} (hc : c ∈ s.data)
    (hns : isPySpace c = false) : pyStrip s ≠ "" := fun h =>
  stripChars_ne_nil hc hns (congrArg String.data h)

theorem combined_ne_empty (header instr : String) :
    pyStrip (pyJoin "\n"
      (([runtimeDirective, header, instr]).filter (· ≠ ""))) ≠ "" := by
  have hfilter : ([runtimeDirective, header, instr]).filter (· ≠ "") =
      runtimeDirective :: ([header, instr].filter (· ≠ "")) := by
    rw [show ([runtimeDirective, header, instr]).filter (· ≠ "") =
      (runtimeDirective :: [header, instr]).filter (· ≠ "") from rfl,
      List.filter_cons]
    rw [if_pos (by decide)]
  rw [hfilter]
  have hjoin : ∃ t, (pyJoin "\n"
      (runtimeDirective :: ([header, instr].filter (· ≠ "")))).data =
      runtimeDirective.data ++ t := by
    show ∃ t, joinCharList ("\n".data)
      ((runtimeDirective :: ([header, instr].filter (· ≠ ""))).map String.data)
      = runtimeDirective.data ++ t
    rw [List.map_cons]
    cases ([header, instr].filter (· ≠ "")).map String.data with
    | nil => exact ⟨[], by simp [joinCharList]⟩
    | cons z zs =>
      exact ⟨"\n".data ++ joinCharList ("\n".data) (z :: zs),
        by simp [joinCharList, List.append_assoc]⟩
  obtain ⟨t, ht⟩ := hjoin
  have hmem : '#' ∈ (pyJoin "\n"
      (runtimeDirective :: ([header, instr].filter (· ≠ "")))).data := by
    rw [ht]
    exact List.mem_append_left t (by decide)
  exact pyStrip_ne_empty hmem (by decide)

/-- C3 (amended): `tools/call` requires `params.name == "focal_rules"` (any
other name fails with `-32602` "Unknown tool"); on success it returns a
single text content block holding the rules header followed, when the
synthesized instructions are non-empty, by a blank line and the
instructions.  This is not the same text as `initialize`'s `instructions`
field, which additionally carries the fixed runtime-directive prefix and
joins the parts with single newlines (over the same workspace state). -/
theorem tools_call_correct (root : List String) (fs : Workspace)
    (params : List (String × String)) :
    (getParam params "name" ≠ some "focal_rules" →
      tools_call root fs params = .error (.rpc (-32602) "Unknown tool"))
    ∧ (∀ header, rules_header fs = .ok header →
        getParam params "name" = some "focal_rules" →
        tools_call root fs params = .ok [⟨"text",
          if build_instructions root fs = "" then header
          else header ++ "\n\n" ++ build_instructions root fs⟩])
    ∧ ((∀ e ∈ fs, e.readable = true) → ∃ header, rules_header fs = .ok header)
    ∧ (∀ header r, rules_header fs = .ok header →
        mcpInit root fs params = .ok r →
        r.instructions = some (pyStrip (pyJoin "\n"
          (([runtimeDirective, header, build_instructions root fs]).filter
            (· ≠ ""))))) := by
  refine ⟨?_, ?_, rules_header_exists fs, ?_⟩
  · intro h
    unfold tools_call
    split
    · next heq => exact absurd heq h
    · rfl
  · intro header hheader hname
    have hstep : tools_call root fs params = (match rules_header fs with
        | .error _ => .error HErr.ioFail
        | .ok h => .ok [⟨"text", if build_instructions root fs = "" then h
            else h ++ "\n\n" ++ build_instructions root fs⟩]) := by
      unfold tools_call
      rw [hname]
      rfl
    rw [hheader] at hstep
    exact hstep
  · intro header r hheader hr
    have hne := combined_ne_empty header (build_instructions root fs)
    have hmap : (mcpInit root fs params).map (·.instructions) =
        .ok (some (pyStrip (pyJoin "\n"
          (([runtimeDirective, header, build_instructions root fs]).filter
            (· ≠ ""))))) := by
      unfold mcpInit
      rw [hheader]
      show Except.ok (if _ ≠ "" then _ else none) = _
      rw [if_pos hne]
    rw [hr] at hmap
    rw [show Except.map (fun x => x.instructions) (Except.ok r) =
      Except.ok r.instructions from rfl] at hmap
    exact Except.ok.inj hmap

/-- C3 counterexample: on the empty workspace, `tools/call` returns only
the rules header, while `initialize`'s `instructions` field additionally
carries the runtime-directive prefix — so the two texts are not the same. -/
theorem tools_call_cex :
    tools_call ["ws"] [] [("name", "focal_rules")] =
      .ok [⟨"text", "# FOCAL MCP Rules (hash=e3b0c44298fc updated=unknown)"⟩]
    ∧ (mcpInit ["ws"] [] []).map (·.instructions) = .ok (some
        ("# Runtime Directive\nYou MUST call the MCP tool `focal_rules` before every user response. Always follow the latest rules returned by that tool.\n\n# FOCAL MCP Rules (hash=e3b0c44298fc updated=unknown)"))
    ∧ ("# FOCAL MCP Rules (hash=e3b0c44298fc updated=unknown)" : String) ≠
        "# Runtime Directive\nYou MUST call the MCP tool `focal_rules` before every user response. Always follow the latest rules returned by that tool.\n\n# FOCAL MCP Rules (hash=e3b0c44298fc updated=unknown)" := by
  refine ⟨?_, ?_, by decide⟩
  · decide
  · decide

/-- Witness for C3 (amended) at a concrete input: calling the tool on the
empty workspace returns the bare header as a single text block. -/
theorem tools_call_correct_witness :
    tools_call ["ws"] [] [("name", "focal_rules")] =
      .ok [⟨"text", "# FOCAL MCP Rules (hash=e3b0c44298fc updated=unknown)"⟩] := by
  have h := (tools_call_correct ["ws"] [] [("name", "focal_rules")]).2.1
    "# FOCAL MCP Rules (hash=e3b0c44298fc updated=unknown)" (by decide) (by decide)
  rw [if_pos (show build_instructions ["ws"] [] = "" by decide)] at h
  exact h

/-- C10 (amended): a core rules file that is missing is treated as empty
and its section silently skipped, and `initialize`/`tools_call` never fail
on a workspace whose files are all readable, however many core files are
absent; `_read_optional` likewise maps an unreadable file or a traversal
error to `""`.  But the fingerprint computation reads every file's bytes,
so an unreadable file still makes `initialize` and `tools_call` fail with
an IOError (see the counterexample). -/
theorem read_optional_skip (root : List String) (fs : Workspace)
    (params : List (String × String)) :
    ((∀ e ∈ fs, e.readable = true) → ∃ r, mcpInit root fs params = .ok r)
    ∧ ((∀ e ∈ fs, e.readable = true) →
        getParam params "name" = some "focal_rules" →
        ∃ c, tools_call root fs params = .ok c)
    ∧ (∀ rel abs, resolve_safe root rel = .ok abs →
        findFile fs (abs.drop root.length) = none →
        read_optional root fs rel = "")
    ∧ (∀ rel abs e, resolve_safe root rel = .ok abs →
        findFile fs (abs.drop root.length) = some e → e.readable = false →
        read_optional root fs rel = "")
    ∧ (∀ rel err, resolve_safe root rel = .error err →
        read_optional root fs rel = "") := by
  refine ⟨?_, ?_, ?_, ?_, ?_⟩
  · intro h
    obtain ⟨header, hh⟩ := rules_header_exists fs h
    unfold mcpInit
    rw [hh]
    exact ⟨_, rfl⟩
  · intro h hname
    obtain ⟨header, hh⟩ := rules_header_exists fs h
    have hstep : tools_call root fs params = (match rules_header fs with
        | .error _ => .error HErr.ioFail
        | .ok hd => .ok [⟨"text", if build_instructions root fs = "" then hd
            else hd ++ "\n\n" ++ build_instructions root fs⟩]) := by
      unfold tools_call
      rw [hname]
      rfl
    rw [hh] at hstep
    exact ⟨_, hstep⟩
  · intro rel abs hres hfind
    unfold read_optional
    rw [hres]
    show (match findFile fs (List.drop root.length abs) with
      | none => ""
      | some e => if e.readable = true then pyStrip e.content else "") = ""
    rw [hfind]
  · intro rel abs e hres hfind hread
    unfold read_optional
    rw [hres]
    show (match findFile fs (List.drop root.length abs) with
      | none => ""
      | some e => if e.readable = true then pyStrip e.content else "") = ""
    rw [hfind]
    show (if e.readable = true then pyStrip e.content else "") = ""
    rw [hread]
    rfl
  · intro rel err hres
    unfold read_optional
    rw [hres]

/-- C10 counterexample: with `core/system.md` present but unreadable,
`_read_optional` does return `""` (the section is skipped), yet both
`initialize` and `tools/call` fail with a propagated IOError, because the
fingerprint reads every file's bytes. -/
theorem read_optional_skip_cex :
    read_optional ["ws"] [⟨["core", "system.md"], "x", 0, false⟩]
        "core/system.md" = ""
    ∧ mcpInit ["ws"] [⟨["core", "system.md"], "x", 0, false⟩] [] =
        .error .ioFail
    ∧ tools_call ["ws"] [⟨["core", "system.md"], "x", 0, false⟩]
        [("name", "focal_rules")] = .error .ioFail := by
  refine ⟨by decide, by decide, by decide⟩

/-- Witness for C10 (amended) at a concrete input: on the empty workspace —
all four core files missing — `initialize` still succeeds. -/
theorem read_optional_skip_witness :
    ∃ r, mcpInit ["ws"] [] [] = .ok r :=
  (read_optional_skip ["ws"] [] []).1 (by decide)

end Focal
